import Mathlib

/-!
Verification development for the cargo-sane repository.

Text is modelled as `List Char`; every manifest/tool-output string in the
Rust sources becomes a `List Char` here.  The external `semver` crate
(`Version::parse`, its total order and `to_string`) and the two `regex`
patterns used by the updater are embedded directly, specialised to the
shapes the code constructs.  Stateful filesystem code is modelled by
explicit state passing.
-/

/-- The Unicode White_Space code points: this is the character class matched
by the regex crate's `\s` and trimmed by Rust's `str::trim`. -/
def isWsChar (c : Char) : Bool :=
  c.val == 0x9 || c.val == 0xA || c.val == 0xB || c.val == 0xC || c.val == 0xD ||
  c.val == 0x20 || c.val == 0x85 || c.val == 0xA0 || c.val == 0x1680 ||
  (0x2000 ≤ c.val && c.val ≤ 0x200A) || c.val == 0x2028 || c.val == 0x2029 ||
  c.val == 0x202F || c.val == 0x205F || c.val == 0x3000

/-- `str::trim_start` : drop leading whitespace. -/
def trimLeft (s : List Char) : List Char := s.dropWhile (fun c => isWsChar c)

/-- `str::trim_end` : drop trailing whitespace. -/
def trimRight (s : List Char) : List Char := (s.reverse.dropWhile (fun c => isWsChar c)).reverse

/-- `str::trim` : drop whitespace at both ends. -/
def rustTrim (s : List Char) : List Char := trimLeft (trimRight s)

/-- `str::trim_start_matches(c)` : drop every leading occurrence of the char `c`. -/
def trimStartMatches (c : Char) (s : List Char) : List Char := s.dropWhile (fun a => a == c)

/-- `str::trim_start_matches(pred)` : drop leading chars satisfying `pred`. -/
def trimStartWhile (pred : Char → Bool) (s : List Char) : List Char := s.dropWhile pred

/-- Split on the newline character; the result always has one more segment
than the text has `'\n'` characters (so it is never empty). -/
def splitNl : List Char → List (List Char)
  | [] => [[]]
  | c :: cs =>
    if c = '\n' then [] :: splitNl cs
    else
      match splitNl cs with
      | [] => [[c]]
      | l :: ls => (c :: l) :: ls

/-- Drop one trailing `'\r'` if present (the `\r\n` handling of `str::lines`). -/
def stripCr (s : List Char) : List Char :=
  match s.reverse with
  | '\r' :: r => r.reverse
  | _ => s

/-- `str::lines` : split at `'\n'`, strip a `'\r'` left at a segment end,
and do not yield a final empty segment for a trailing newline. -/
def rustLines (s : List Char) : List (List Char) :=
  if s = [] then []
  else if s.getLast? = some '\n' then ((splitNl s).dropLast).map stripCr
  else
    match (splitNl s).map stripCr with
    | [] => []
    | ls => ls.dropLast ++ [(splitNl s).getLast!]

/-- `str::split('.')` : split at every dot; `n` dots give `n+1` segments. -/
def splitDot : List Char → List (List Char)
  | [] => [[]]
  | c :: cs =>
    if c = '.' then [] :: splitDot cs
    else
      match splitDot cs with
      | [] => [[c]]
      | l :: ls => (c :: l) :: ls

/-- `str::split_whitespace` : the maximal runs of non-whitespace characters. -/
def splitWs : List Char → List (List Char)
  | [] => []
  | c :: cs =>
    if isWsChar c then splitWs cs
    else
      match splitWs cs with
      | [] => [[c]]
      | l :: ls =>
        if cs.head?.any (fun a => isWsChar a) then [c] :: l :: ls
        else (c :: l) :: ls

/-- `str::contains(pat)` for a literal pattern : substring occurrence test. -/
def containsSub (hay pat : List Char) : Bool :=
  match hay with
  | [] => pat.isEmpty
  | _ :: t => pat.isPrefixOf hay || containsSub t pat

/-- ASCII decimal digit test. -/
def isDigitChar (c : Char) : Bool := '0' ≤ c && c ≤ '9'

/-- Value of an ASCII digit. -/
def digitVal (c : Char) : Nat := c.toNat - 48

/-- Decimal rendering worker; the fuel bounds the number of divisions. -/
def natDigitsAux : Nat → Nat → List Char
  | 0, _ => []
  | fuel + 1, n =>
    if n < 10 then [Char.ofNat (48 + n)]
    else natDigitsAux fuel (n / 10) ++ [Char.ofNat (48 + n % 10)]

/-- Canonical decimal rendering of a natural number (the `Display` form used
by Rust for the numeric components of a version). -/
def natDigits (n : Nat) : List Char := natDigitsAux (n + 1) n

/-- Numeric value of a digit string. -/
def natOfDigits (ds : List Char) : Nat := ds.foldl (fun a c => a * 10 + digitVal c) 0

/-! ## The semver model

Modelled from the external `semver` crate used by the repository:
`semver::Version` is (major, minor, patch, pre-release, build metadata);
its `Ord` compares major, minor, patch, then pre-release per the SemVer
specification and finally build metadata lexically, giving a total order. -/

/-- A pre-release identifier: purely numeric, or alphanumeric (kept as text). -/
inductive PreId where
  | num (n : Nat)
  | alpha (s : List Char)
deriving DecidableEq, Repr

/-- `semver::Version`. Build metadata identifiers are kept as raw text. -/
structure SemVer where
  major : Nat
  minor : Nat
  patch : Nat
  pre : List PreId
  build : List (List Char)
deriving DecidableEq, Repr

/-- Shorthand for a plain release version. -/
def mkVer (a b c : Nat) : SemVer := ⟨a, b, c, [], []⟩

/-- Lexicographic comparison of char lists (byte order of ASCII text). -/
def cmpChars : List Char → List Char → Ordering
  | [], [] => .eq
  | [], _ :: _ => .lt
  | _ :: _, [] => .gt
  | a :: as, b :: bs =>
    if a.val < b.val then .lt
    else if b.val < a.val then .gt
    else cmpChars as bs

/-- SemVer precedence on one pre-release identifier: numeric identifiers
compare numerically and are lower than alphanumeric ones. -/
def cmpPreId : PreId → PreId → Ordering
  | .num a, .num b => compare a b
  | .num _, .alpha _ => .lt
  | .alpha _, .num _ => .gt
  | .alpha a, .alpha b => cmpChars a b

/-- Identifier-list comparison: componentwise, a strict prefix is lower. -/
def cmpPreList : List PreId → List PreId → Ordering
  | [], [] => .eq
  | [], _ :: _ => .lt
  | _ :: _, [] => .gt
  | a :: as, b :: bs =>
    match cmpPreId a b with
    | .eq => cmpPreList as bs
    | o => o

/-- SemVer pre-release comparison: an empty pre-release (a release) is
higher than any non-empty one. -/
def cmpPre (a b : List PreId) : Ordering :=
  match a, b with
  | [], [] => .eq
  | [], _ :: _ => .gt
  | _ :: _, [] => .lt
  | _, _ => cmpPreList a b

/-- Build-metadata identifier comparison in the `semver` crate: two
all-digit identifiers compare numerically (by length, then lexically);
digits sort below non-digits; otherwise lexical. -/
def cmpBuildId (a b : List Char) : Ordering :=
  if a.all isDigitChar && b.all isDigitChar then
    match compare a.length b.length with
    | .eq => cmpChars a b
    | o => o
  else if a.all isDigitChar then .lt
  else if b.all isDigitChar then .gt
  else cmpChars a b

/-- Build-metadata list comparison: componentwise, a strict prefix is lower. -/
def cmpBuildList : List (List Char) → List (List Char) → Ordering
  | [], [] => .eq
  | [], _ :: _ => .lt
  | _ :: _, [] => .gt
  | a :: as, b :: bs =>
    match cmpBuildId a b with
    | .eq => cmpBuildList as bs
    | o => o

/-- `Ord for semver::Version`: major, minor, patch, pre-release, build. -/
def cmpVer (a b : SemVer) : Ordering :=
  match compare a.major b.major with
  | .eq =>
    match compare a.minor b.minor with
    | .eq =>
      match compare a.patch b.patch with
      | .eq =>
        match cmpPre a.pre b.pre with
        | .eq => cmpBuildList a.build b.build
        | o => o
      | o => o
    | o => o
  | o => o

/-- `latest <= current` as the Rust `<=` on `semver::Version`. -/
def leVer (a b : SemVer) : Bool :=
  match cmpVer a b with
  | .gt => false
  | _ => true

/-! ### `semver::Version::parse`

The crate's grammar: exactly `major.minor.patch`, each a digit run with no
leading zero (except the single digit `0`), then an optional `-prerelease`
(dot-separated, nonempty identifiers over `[0-9A-Za-z-]`, all-numeric ones
without leading zeros) and an optional `+build` (dot-separated, nonempty
identifiers over `[0-9A-Za-z-]`); the whole input must be consumed. -/

/-- Parse a numeric version component: a maximal digit run, rejected when it
has a leading zero; returns the value and the rest of the input. -/
def parseNumPart (s : List Char) : Option (Nat × List Char) :=
  let ds := s.takeWhile isDigitChar
  let rest := s.dropWhile isDigitChar
  if ds.isEmpty then none
  else if ds.head? = some '0' && ds.length > 1 then none
  else some (natOfDigits ds, rest)

/-- A character allowed inside a pre-release or build identifier. -/
def isIdentChar (c : Char) : Bool :=
  isDigitChar c || ('a' ≤ c && c ≤ 'z') || ('A' ≤ c && c ≤ 'Z') || c == '-'

/-- Parse one pre-release identifier. -/
def parsePreId (s : List Char) : Option (PreId × List Char) :=
  let ds := s.takeWhile isIdentChar
  let rest := s.dropWhile isIdentChar
  if ds.isEmpty then none
  else if ds.all isDigitChar then
    if ds.head? = some '0' && ds.length > 1 then none
    else some (.num (natOfDigits ds), rest)
  else some (.alpha ds, rest)

/-- Parse one build identifier. -/
def parseBuildId (s : List Char) : Option (List Char × List Char) :=
  let ds := s.takeWhile isIdentChar
  let rest := s.dropWhile isIdentChar
  if ds.isEmpty then none else some (ds, rest)

/-- Parse a dot-separated identifier list with `p` for single identifiers. -/
def parseDotSep {α : Type} (p : List Char → Option (α × List Char)) :
    Nat → List Char → Option (List α × List Char)
  | 0, _ => none
  | fuel + 1, s =>
    match p s with
    | none => none
    | some (a, rest) =>
      match rest with
      | '.' :: more =>
        match parseDotSep p fuel more with
        | none => none
        | some (as, r) => some (a :: as, r)
      | _ => some ([a], rest)

/-- `semver::Version::parse`, yielding `none` on any malformed input. -/
def parseVersion (s : List Char) : Option SemVer :=
  match parseNumPart s with
  | none => none
  | some (maj, r1) =>
    match r1 with
    | '.' :: r2 =>
      match parseNumPart r2 with
      | none => none
      | some (min, r3) =>
        match r3 with
        | '.' :: r4 =>
          match parseNumPart r4 with
          | none => none
          | some (pat, r5) =>
            let (pre, r6) :=
              match r5 with
              | '-' :: r =>
                match parseDotSep parsePreId (r.length + 1) r with
                | some (ps, rr) => (some ps, rr)
                | none => (none, r5)
              | _ => (some [], r5)
            match pre with
            | none => none
            | some ps =>
              let (bld, r7) :=
                match r6 with
                | '+' :: r =>
                  match parseDotSep parseBuildId (r.length + 1) r with
                  | some (bs, rr) => (some bs, rr)
                  | none => (none, r6)
                | _ => (some [], r6)
              match bld with
              | none => none
              | some bs => if r7.isEmpty then some ⟨maj, min, pat, ps, bs⟩ else none
        | _ => none
    | _ => none

/-- Rendering of one pre-release identifier. -/
def preIdChars : PreId → List Char
  | .num n => natDigits n
  | .alpha s => s

/-- Dot-joined rendering of an identifier list. -/
def dotJoin (f : α → List Char) : List α → List Char
  | [] => []
  | [a] => f a
  | a :: as => f a ++ '.' :: dotJoin f as

/-- `semver::Version`'s `Display`/`to_string`. -/
def verToChars (v : SemVer) : List Char :=
  natDigits v.major ++ '.' :: natDigits v.minor ++ '.' :: natDigits v.patch ++
  (if v.pre.isEmpty then [] else '-' :: dotJoin preIdChars v.pre) ++
  (if v.build.isEmpty then [] else '+' :: dotJoin id v.build)

/-! ## VersionModel: `Dependency::update_type` (src/core/dependency.rs) -/

/-- `UpdateType` from src/core/dependency.rs. -/
inductive UpdateType where
  | patch
  | minor
  | major
  | upToDate
deriving DecidableEq, Repr

/-- `Dependency` from src/core/dependency.rs. -/
structure Dependency where
  name : List Char
  current_version : SemVer
  latest_version : Option SemVer
  is_direct : Bool

/-- `Dependency::update_type` from src/core/dependency.rs. -/
def update_type (d : Dependency) : UpdateType :=
  match d.latest_version with
  | none => .upToDate
  | some latest =>
    if leVer latest d.current_version then .upToDate
    else if latest.major > d.current_version.major then .major
    else if latest.minor > d.current_version.minor then .minor
    else .patch

/-- The `classifyUpdate` rule exactly as the spec words it (§4.1), written
independently of `update_type` for a refinement comparison. -/
def classifyUpdateSpec (current : SemVer) (latest : Option SemVer) : UpdateType :=
  match latest with
  | none => .upToDate
  | some l =>
    if leVer l current then .upToDate
    else if l.major > current.major then .major
    else if l.minor > current.minor then .minor
    else .patch

/-! ## VersionModel: `parse_version_req` (src/analyzer/checker.rs) -/

/-- `normalize_version` from src/analyzer/checker.rs: pad a version string
to three dot-separated components. -/
def normalize_version (version : List Char) : List Char :=
  let parts := splitDot version
  match parts with
  | [p0] => p0 ++ ('.' :: '0' :: '.' :: '0' :: [])
  | [p0, p1] => p0 ++ '.' :: p1 ++ ('.' :: '0' :: [])
  | _ => version

/-- The prefix-stripping chain of `parse_version_req`: all leading
occurrences of each of `^ ~ = > <`, in that fixed order. -/
def stripOps (s : List Char) : List Char :=
  trimStartMatches '<'
    (trimStartMatches '>'
      (trimStartMatches '='
        (trimStartMatches '~'
          (trimStartMatches '^' s))))

/-- The parse applied to the cleaned requirement: direct first, then after
normalisation. -/
def pvrCore (cleaned : List Char) : Option SemVer :=
  match parseVersion cleaned with
  | some v => some v
  | none => parseVersion (normalize_version cleaned)

/-- `parse_version_req` from src/analyzer/checker.rs: trim, strip all
leading occurrences of each of `^ ~ = > <` in that fixed order, trim again,
then parse directly or after normalisation. -/
def parse_version_req (req : List Char) : Option SemVer :=
  pvrCore (rustTrim (stripOps (rustTrim req)))

/-- The five operator characters stripped by `parse_version_req`. -/
def opChars : List Char := ['^', '~', '=', '>', '<']

/-! ## ManifestUpdater: `update_dependency` (src/updater/update.rs)

The two regex patterns built by `update_dependency` are embedded as
deterministic matchers.  Both patterns are anchored by `(?m)^`, so a match
begins at the start of a line; `regex::escape(dep_name)` makes the name a
literal.  Because no alternation occurs and every quantified class
(`\s*`, `[^"]+`) is disjoint from the character that must follow it,
greedy maximal-munch matching is exact for these patterns. -/

/-- Match `\s*` : returns the consumed run and the rest. -/
def munchWs (s : List Char) : List Char × List Char :=
  (s.takeWhile (fun c => isWsChar c), s.dropWhile (fun c => isWsChar c))

/-- Match a literal string. -/
def munchLit (lit s : List Char) : Option (List Char) :=
  if lit.isPrefixOf s then some (s.drop lit.length) else none

/-- Match `([^"]+)(")` : the quoted value (nonempty, no quote) and the rest
after the closing quote. -/
def munchQuoted (s : List Char) : Option (List Char × List Char) :=
  let v := s.takeWhile (fun c => c ≠ '"')
  match s.dropWhile (fun c => c ≠ '"') with
  | '"' :: rest => if v.isEmpty then none else some (v, rest)
  | _ => none

/-- The simple-form pattern `(?m)^(\s*name\s*=\s*")([^"]+)(")` applied at
one candidate start position: yields (capture 1, capture 2, text after the
closing quote). -/
def matchSimple (name s : List Char) : Option (List Char × List Char × List Char) :=
  let (w1, s1) := munchWs s
  match munchLit name s1 with
  | none => none
  | some s2 =>
    let (w2, s3) := munchWs s2
    match s3 with
    | '=' :: s4 =>
      let (w3, s5) := munchWs s4
      match s5 with
      | '"' :: s6 =>
        match munchQuoted s6 with
        | none => none
        | some (v, rest) =>
          some (w1 ++ name ++ w2 ++ '=' :: w3 ++ ['"'], v, rest)
      | _ => none
    | _ => none

/-- The detailed-form pattern
`(?m)^(\s*name\s*=\s*\{\s*version\s*=\s*")([^"]+)(")` applied at one
candidate start position. -/
def matchDetailed (name s : List Char) : Option (List Char × List Char × List Char) :=
  let (w1, s1) := munchWs s
  match munchLit name s1 with
  | none => none
  | some s2 =>
    let (w2, s3) := munchWs s2
    match s3 with
    | '=' :: s4 =>
      let (w3, s5) := munchWs s4
      match s5 with
      | '{' :: s6 =>
        let (w4, s7) := munchWs s6
        match munchLit ('v' :: 'e' :: 'r' :: 's' :: 'i' :: 'o' :: 'n' :: []) s7 with
        | none => none
        | some s8 =>
          let (w5, s9) := munchWs s8
          match s9 with
          | '=' :: s10 =>
            let (w6, s11) := munchWs s10
            match s11 with
            | '"' :: s12 =>
              match munchQuoted s12 with
              | none => none
              | some (v, rest) =>
                some (w1 ++ name ++ w2 ++ '=' :: w3 ++ '{' :: w4 ++
                      'v' :: 'e' :: 'r' :: 's' :: 'i' :: 'o' :: 'n' :: w5 ++
                      '=' :: w6 ++ ['"'], v, rest)
            | _ => none
          | _ => none
      | _ => none
    | _ => none

/-- Scan for a match at each position that follows a newline, in increasing
position order; yields the text before the match start and the matcher's
result. -/
def findAfterNl (m : List Char → Option α) : List Char → Option (List Char × α)
  | [] => none
  | c :: cs =>
    if c = '\n' then
      match m cs with
      | some r => some ([c], r)
      | none =>
        match findAfterNl m cs with
        | none => none
        | some (p, r) => some (c :: p, r)
    else
      match findAfterNl m cs with
      | none => none
      | some (p, r) => some (c :: p, r)

/-- Find the leftmost `(?m)^`-anchored match: try the matcher at position 0
and after each newline, returning the text before the match start and the
matcher's result.  This is the first match found by `Regex::is_match` /
`Regex::replace` for the updater's line-anchored patterns. -/
def findFromLineStarts (m : List Char → Option α) (s : List Char) :
    Option (List Char × α) :=
  match m s with
  | some r => some ([], r)
  | none => findAfterNl m s

/-- `DependencyUpdater::update_dependency` from src/updater/update.rs:
strategy 1 (detailed form) then strategy 2 (simple form); the first match of
the winning pattern has its quoted value replaced; `none` models the
"Could not find dependency ... in Cargo.toml" failure, which leaves the
held text unchanged. -/
def update_dependency (name newVersion text : List Char) : Option (List Char) :=
  match findFromLineStarts (matchDetailed name) text with
  | some (pre, (c1, _, rest)) => some (pre ++ c1 ++ newVersion ++ '"' :: rest)
  | none =>
    match findFromLineStarts (matchSimple name) text with
    | some (pre, (c1, _, rest)) => some (pre ++ c1 ++ newVersion ++ '"' :: rest)
    | none => none

/-- Join segments with `'\n'`: the exact inverse of `splitNl`. -/
def joinNl : List (List Char) → List Char
  | [] => []
  | [l] => l
  | l :: ls => l ++ '\n' :: joinNl ls

/-- A line is a declaration line for `name` when one of the two updater
patterns matches at its start. -/
def isDeclLine (name line : List Char) : Bool :=
  (matchDetailed name line).isSome || (matchSimple name line).isSome

/-- Modelled from the spec: `DependencyUpdater::remove_dependency` is
invoked by `clean_command` (src/cli/commands.rs) but its definition is
absent from src/.  Per spec §4.5 it has the same not-found failure
semantics as `update_dependency` and removes the entire declaration
line(s) for the dependency, leaving all other lines unchanged in order and
spacing. -/
def remove_dependency (name text : List Char) : Option (List Char) :=
  let ls := splitNl text
  if ls.all (fun l => !isDeclLine name l) then none
  else some (joinNl (ls.filter (fun l => !isDeclLine name l)))

/-! ## ManifestUpdater: `save` (src/updater/update.rs)

The filesystem is modelled as explicit state: the manifest file and its
backup sibling (`path.with_extension("toml.backup")`).  `fs::copy` fails
when the source file is absent or for an injected environmental reason;
on any failure `?` propagates before `fs::write` runs. -/

/-- The on-disk state seen by `save`: the manifest file and the backup file
(`none` = the file does not exist). -/
structure FsState where
  manifest : Option (List Char)
  backup : Option (List Char)
deriving DecidableEq, Repr

/-- `DependencyUpdater::save`: copy the manifest to the backup path
(unconditionally overwriting it), then write the in-memory text.  The Bool
result is success; on a copy failure the write is never attempted. -/
def save (fs : FsState) (raw : List Char) (copyFails writeFails : Bool) :
    Bool × FsState :=
  match fs.manifest with
  | none => (false, fs)
  | some current =>
    if copyFails then (false, fs)
    else
      if writeFails then (false, ⟨some current, some current⟩)
      else (true, ⟨some raw, some current⟩)

/-! ## ConflictDetector (src/analyzer/conflicts.rs) -/

/-- `Conflict` from src/analyzer/conflicts.rs. -/
structure Conflict where
  package_name : List Char
  versions : List (List Char)
  dependents : List (List Char)
  suggested_version : Option (List Char)
deriving DecidableEq, Repr

/-- `ConflictReport::new`. -/
structure ConflictReport where
  conflicts : List Conflict
  total_packages : Nat
  has_conflicts : Bool
deriving DecidableEq, Repr

/-- `ConflictReport::new` computes `has_conflicts` from the list. -/
def mkConflictReport (conflicts : List Conflict) (total : Nat) : ConflictReport :=
  ⟨conflicts, total, !conflicts.isEmpty⟩

/-- The characters stripped from the front of the first whitespace-token of
a `cargo tree` line: `|`, `-`, space and backtick. -/
def isTreeChar (c : Char) : Bool :=
  c == '|' || c == '-' || c == ' ' || c == Char.ofNat 96

/-- The per-line extraction inside `parse_duplicates`: trim the line, skip
it when empty, split on whitespace; with at least two tokens, the package
name is the first token with leading tree characters stripped, and the
version is the second token when it starts with `v`. -/
def lineEntry (line : List Char) : Option (List Char × List Char) :=
  let l := rustTrim line
  if l.isEmpty then none
  else
    match splitWs l with
    | p0 :: p1 :: _ =>
      (match p1 with
       | 'v' :: ver => some (trimStartWhile isTreeChar p0, ver)
       | _ => none)
    | _ => none

/-- Append an observation to the per-package version multiset, keyed by
name; the map contents equal those of the Rust `HashMap<String, Vec>`. -/
def pushPV (acc : List (List Char × List (List Char))) (name ver : List Char) :
    List (List Char × List (List Char)) :=
  match acc with
  | [] => [(name, [ver])]
  | (k, vs) :: rest =>
    if k = name then (k, vs ++ [ver]) :: rest
    else (k, vs) :: pushPV rest name ver

/-- Accumulate all per-line observations of a `cargo tree` output. -/
def accumPV (out : List Char) : List (List Char × List (List Char)) :=
  ((rustLines out).filterMap lineEntry).foldl (fun acc e => pushPV acc e.1 e.2) []

/-- Insertion-sort step by ascending `semver` order. -/
def insVer (v : SemVer) : List SemVer → List SemVer
  | [] => [v]
  | w :: ws => if leVer v w then v :: w :: ws else w :: insVer v ws

/-- `Vec::sort` on parsed versions (ascending `semver` order). -/
def sortVers (l : List SemVer) : List SemVer := l.foldr insVer []

/-- `ConflictDetector::suggest_version`: parse every version string that is
valid semver, sort ascending, return the textual form of the last (highest);
`none` when no candidate parses. -/
def suggest_version (versions : List (List Char)) : Option (List Char) :=
  let parsed := versions.filterMap parseVersion
  match (sortVers parsed).getLast? with
  | none => none
  | some m => some (verToChars m)

/-- The informational dependents marker pushed per observation. -/
def depTreeMark : List Char := "(dependency tree)".data

/-- The set of distinct version strings as one canonical list: the Rust
code materialises a `HashSet<String>` whose iteration order is
unspecified, so the set is represented by keeping each distinct string at
its last occurrence. -/
def distinctVers : List (List Char) → List (List Char)
  | [] => []
  | x :: xs => if x ∈ xs then distinctVers xs else x :: distinctVers xs

/-- Stable insertion by ascending package name. -/
def insConf (c : Conflict) : List Conflict → List Conflict
  | [] => [c]
  | d :: ds =>
    if cmpChars c.package_name d.package_name = .lt then c :: d :: ds
    else d :: insConf c ds

/-- `sort_by` on package name (stable; ascending). -/
def sortConfs (l : List Conflict) : List Conflict := l.foldr insConf []

/-- `ConflictDetector::parse_duplicates`: accumulate observations per
package, keep the packages whose set of distinct version strings has more
than one element, attach the suggestion, and sort by package name. -/
def parse_duplicates (out : List Char) : List Conflict :=
  let raw := (accumPV out).filterMap (fun e =>
    let uniq := distinctVers e.2
    if uniq.length > 1 then
      some ⟨e.1, uniq, e.2.map (fun _ => depTreeMark), suggest_version uniq⟩
    else none)
  sortConfs raw

/-- The substring `detect_conflicts` looks for in the failing tool's
diagnostics. -/
def lockFileName : List Char := "Cargo.lock".data

/-- `ConflictDetector::detect_conflicts`, abstracted over the two
`cargo tree` invocations: (status and streams of the duplicates run, status
and stdout of the full listing run).  An unsuccessful duplicates run whose
stderr mentions `Cargo.lock` yields the empty report; any other
unsuccessful duplicates run is a surfaced error. -/
def detect_conflicts (success1 : Bool) (stdout1 stderr1 : List Char)
    (success2 : Bool) (stdout2 : List Char) : Except (List Char) ConflictReport :=
  if success1 then
    let conflicts := parse_duplicates stdout1
    let total :=
      if success2 then
        ((rustLines stdout2).filter (fun l => !(rustTrim l).isEmpty)).length
      else 0
    .ok (mkConflictReport conflicts total)
  else
    if containsSub stderr1 lockFileName then .ok (mkConflictReport [] 0)
    else .error ("cargo tree failed: ".data ++ stderr1)

/-! ## UsageAnalyzer (src/utils/cargo.rs)

The four regex scans of `find_used_dependencies` are embedded as
specialised matchers driven by a `captures_iter`-style scanner that finds
successive non-overlapping leftmost matches. -/

/-- First char of a Rust identifier per the patterns: `[a-zA-Z_]`. -/
def isIdStart (c : Char) : Bool :=
  ('a' ≤ c && c ≤ 'z') || ('A' ≤ c && c ≤ 'Z') || c == '_'

/-- Subsequent identifier chars per the patterns: `[a-zA-Z0-9_]`. -/
def isIdChar (c : Char) : Bool := isIdStart c || isDigitChar c

/-- Match `([a-zA-Z_][a-zA-Z0-9_]*)` with maximal munch. -/
def munchIdent (s : List Char) : Option (List Char × List Char) :=
  match s with
  | [] => none
  | c :: cs =>
    if isIdStart c then some (c :: cs.takeWhile isIdChar, cs.dropWhile isIdChar)
    else none

/-- Match `\s+`: at least one whitespace char. -/
def munchWs1 (s : List Char) : Option (List Char) :=
  match s with
  | c :: cs => if isWsChar c then some (cs.dropWhile (fun a => isWsChar a)) else none
  | [] => none

/-- `^use\s+([a-zA-Z_][a-zA-Z0-9_]*)(?:::|;)` at one position: the captured
identifier and the rest after the whole match. -/
def matchUse (s : List Char) : Option (List Char × List Char) :=
  match munchLit ('u' :: 's' :: 'e' :: []) s with
  | none => none
  | some s1 =>
    match munchWs1 s1 with
    | none => none
    | some s2 =>
      match munchIdent s2 with
      | none => none
      | some (id, s3) =>
        match s3 with
        | ':' :: ':' :: r => some (id, r)
        | ';' :: r => some (id, r)
        | _ => none

/-- `^extern\s+crate\s+([a-zA-Z_][a-zA-Z0-9_]*)` at one position. -/
def matchExternCrate (s : List Char) : Option (List Char × List Char) :=
  match munchLit ('e' :: 'x' :: 't' :: 'e' :: 'r' :: 'n' :: []) s with
  | none => none
  | some s1 =>
    match munchWs1 s1 with
    | none => none
    | some s2 =>
      match munchLit ('c' :: 'r' :: 'a' :: 't' :: 'e' :: []) s2 with
      | none => none
      | some s3 =>
        match munchWs1 s3 with
        | none => none
        | some s4 =>
          match munchIdent s4 with
          | none => none
          | some (id, r) => some (id, r)

/-- `#\[macro_use\]\s*extern\s+crate\s+([a-zA-Z_][a-zA-Z0-9_]*)` at one
position (unanchored pattern). -/
def matchAttrExternCrate (s : List Char) : Option (List Char × List Char) :=
  match munchLit ('#' :: '[' :: 'm' :: 'a' :: 'c' :: 'r' :: 'o' :: '_' :: 'u' :: 's' :: 'e' :: ']' :: []) s with
  | none => none
  | some s1 => matchExternCrate (s1.dropWhile (fun a => isWsChar a))

/-- `([a-zA-Z_][a-zA-Z0-9_]*)(?:::|\!)` at one position (unanchored). -/
def matchPathOrBang (s : List Char) : Option (List Char × List Char) :=
  match munchIdent s with
  | none => none
  | some (id, s1) =>
    match s1 with
    | ':' :: ':' :: r => some (id, r)
    | '!' :: r => some (id, r)
    | _ => none

/-- `captures_iter`: successive leftmost non-overlapping matches.  `anch`
restricts candidate start positions to line starts (`(?m)^`).  The `atLS`
flag says whether the current position is a line start; fuel bounds the
number of steps (each step consumes at least one char for the matchers
used here). -/
def scanIterAux (m : List Char → Option (List Char × List Char)) (anch : Bool) :
    Nat → Bool → List Char → List (List Char)
  | 0, _, _ => []
  | fuel + 1, atLS, s =>
    match (if atLS || !anch then m s else none) with
    | some (a, rest) =>
      if rest.length < s.length then
        a :: scanIterAux m anch fuel
          ((s.take (s.length - rest.length)).getLast? = some '\n') rest
      else
        match s with
        | [] => [a]
        | c :: cs => a :: scanIterAux m anch fuel (c = '\n') cs
    | none =>
      match s with
      | [] => []
      | c :: cs => scanIterAux m anch fuel (c = '\n') cs

/-- All captures of a pattern over one file content. -/
def scanIter (m : List Char → Option (List Char × List Char)) (anch : Bool)
    (s : List Char) : List (List Char) :=
  scanIterAux m anch (s.length + 1) true s

/-- `str::replace('_', "-")`. -/
def underscoreToHyphen (n : List Char) : List Char :=
  n.map (fun c => if c = '_' then '-' else c)

/-- `str::replace('-', "_")`. -/
def hyphenToUnderscore (n : List Char) : List Char :=
  n.map (fun c => if c = '-' then '_' else c)

/-- The fixed built-in crate names inserted into the used-set. -/
def stdCrates : List (List Char) :=
  [('s' :: 't' :: 'd' :: []), ('c' :: 'o' :: 'r' :: 'e' :: []),
   ('a' :: 'l' :: 'l' :: 'o' :: 'c' :: []),
   ('p' :: 'r' :: 'o' :: 'c' :: '_' :: 'm' :: 'a' :: 'c' :: 'r' :: 'o' :: []),
   ('t' :: 'e' :: 's' :: 't' :: [])]

/-- `find_used_dependencies`, abstracted over the corpus of source-file
contents: every capture of the four patterns is inserted in original and
hyphen-normalised spelling, and the built-in crate names are always
members.  The Rust `HashSet` is modelled by this list's membership. -/
def find_used_dependencies (corpus : List (List Char)) : List (List Char) :=
  (corpus.flatMap (fun content =>
    (scanIter matchUse true content ++ scanIter matchExternCrate true content ++
     scanIter matchAttrExternCrate false content ++
     scanIter matchPathOrBang false content).flatMap
      (fun n => [n, underscoreToHyphen n]))) ++ stdCrates

/-- `DetailedDependency` from src/core/manifest.rs.  The unrecognised keys
are an opaque overflow bucket. -/
structure DetailedDependency where
  version : Option (List Char)
  git : Option (List Char)
  path : Option (List Char)
  features : Option (List (List Char))
  optional : Option Bool
  default_features : Option Bool
  other : List (List Char × List Char)
deriving DecidableEq, Repr

/-- `DependencySpec` from src/core/manifest.rs. -/
inductive DependencySpec where
  | simple (version : List Char)
  | detailed (d : DetailedDependency)
deriving DecidableEq, Repr

/-- `find_unused_dependencies` given the declared list and the used-set. -/
def find_unused_dependencies (declared : List (List Char × DependencySpec))
    (used : List (List Char)) : List (List Char) :=
  declared.filterMap (fun e =>
    if used.contains e.1 || used.contains (hyphenToUnderscore e.1) ||
        used.contains (underscoreToHyphen e.1) then none
    else some e.1)

/-! ## ManifestModel (src/core/manifest.rs)

`ManifestContent.dependencies` is a Rust `HashMap`, which retains no
insertion order: its contents are a pure key → value map.  It is modelled
canonically as a key-sorted association list, so the representation of a
map built by successive inserts is invariant under reordering insertions
of distinct keys — exactly the information a `HashMap` keeps. -/

/-- `Package` from src/core/manifest.rs. -/
structure Package where
  name : List Char
  version : List Char
deriving DecidableEq, Repr

/-- `HashMap::insert`: replace the value at an existing key, else add the
key; the canonical representation keeps keys sorted. -/
def insertKV (acc : List (List Char × DependencySpec))
    (k : List Char) (v : DependencySpec) : List (List Char × DependencySpec) :=
  match acc with
  | [] => [(k, v)]
  | (k0, v0) :: rest =>
    match cmpChars k k0 with
    | .lt => (k, v) :: (k0, v0) :: rest
    | .eq => (k, v) :: rest
    | .gt => (k0, v0) :: insertKV rest k v

/-- Build the `HashMap` contents from a declaration sequence. -/
def hashMapOfList (es : List (List Char × DependencySpec)) :
    List (List Char × DependencySpec) :=
  es.foldl (fun acc e => insertKV acc e.1 e.2) []

/-- `ManifestContent` from src/core/manifest.rs; each section is the
canonical representation of its `HashMap`. -/
structure ManifestContent where
  package : Option Package
  dependencies : Option (List (List Char × DependencySpec))
  dev_dependencies : Option (List (List Char × DependencySpec))
  build_dependencies : Option (List (List Char × DependencySpec))
deriving DecidableEq, Repr

/-- `Manifest::get_dependencies`: iterate the `[dependencies]` map only,
cloning each entry; an absent section gives the empty list. -/
def get_dependencies (mc : ManifestContent) : List (List Char × DependencySpec) :=
  match mc.dependencies with
  | some deps => deps
  | none => []

/-- Does the captured quoted value of a found match contain no newline?
(True when there is no match.) -/
def noNlCap (o : Option (List Char × (List Char × List Char × List Char))) : Bool :=
  match o with
  | some (_, (_, c2, _)) => !(c2.contains '\n')
  | none => true

/-- The conflict-line rule exactly as the spec words it (§4.4): strip the
leading tree-drawing characters and spaces from the line, then read
`<name> v<version>`.  Written for a refinement comparison with
`lineEntry`. -/
def specLineContrib (line : List Char) : Option (List Char × List Char) :=
  match splitWs (trimStartWhile isTreeChar line) with
  | n :: p1 :: _ =>
    (match p1 with
     | 'v' :: ver => some (n, ver)
     | _ => none)
  | _ => none

/-- All version strings observed for one package name in a tool output. -/
def observedVersions (name : List Char) (out : List Char) : List (List Char) :=
  ((rustLines out).filterMap lineEntry).filterMap
    (fun e => if e.1 = name then some e.2 else none)

/-- Value lookup in the accumulated per-package map (empty when absent). -/
def getPV (acc : List (List Char × List (List Char))) (k : List Char) :
    List (List Char) :=
  match acc with
  | [] => []
  | (k0, vs) :: rest => if k0 = k then vs else getPV rest k

/-! ## Theorems -/

/-- C1: for every (current, latest) pair, `update_type` returns exactly one
of the four severities and follows the spec's ordered rule: no latest →
UpToDate; latest ≤ current → UpToDate; else major growth → Major; else
minor growth → Minor; else Patch. -/
theorem C1_update_type_follows_spec_rule (d : Dependency) :
    update_type d = classifyUpdateSpec d.current_version d.latest_version ∧
    (update_type d = UpdateType.upToDate ∨ update_type d = UpdateType.patch ∨
      update_type d = UpdateType.minor ∨ update_type d = UpdateType.major) ∧
    (∀ l, d.latest_version = some l → leVer l d.current_version = true →
      update_type d = UpdateType.upToDate) ∧
    (d.latest_version = none → update_type d = UpdateType.upToDate) := by
  refine ⟨?_, ?_, ?_, ?_⟩
  · cases h : d.latest_version <;> simp [update_type, classifyUpdateSpec, h]
  · cases h : d.latest_version
    · simp [update_type, h]
    · simp only [update_type, h]
      split_ifs <;> simp
  · intro l hl hle
    simp [update_type, hl, hle]
  · intro h
    simp [update_type, h]

/-- Witness for C1 at a concrete dependency. -/
theorem C1_update_type_follows_spec_rule_witness :
    update_type ⟨('a' :: []), mkVer 1 2 3, some (mkVer 1 2 3), true⟩ =
      UpdateType.upToDate :=
  (C1_update_type_follows_spec_rule ⟨('a' :: []), mkVer 1 2 3, some (mkVer 1 2 3), true⟩).2.2.1
    (mkVer 1 2 3) rfl (by decide)

/-- C4: a completed save leaves the backup equal to the pre-save manifest
content (overwriting any pre-existing backup) and the manifest equal to the
in-memory text; a failed backup copy prevents the write and leaves the
state unchanged. -/
theorem C4_save_backup_invariant (fs : FsState) (raw : List Char)
    (copyFails writeFails : Bool) :
    (∀ fs', save fs raw copyFails writeFails = (true, fs') →
      fs'.backup = fs.manifest ∧ fs'.manifest = some raw) ∧
    (copyFails = true → save fs raw copyFails writeFails = (false, fs)) ∧
    (fs.manifest = none → save fs raw copyFails writeFails = (false, fs)) := by
  obtain ⟨m, b⟩ := fs
  refine ⟨?_, ?_, ?_⟩
  · intro fs' h
    cases m <;> cases copyFails <;> cases writeFails <;> simp [save] at h
    subst h
    exact ⟨rfl, rfl⟩
  · intro h
    cases m <;> simp [save, h]
  · intro h
    simp at h
    simp [save, h]

/-- Witness for C4 at a concrete filesystem state. -/
theorem C4_save_backup_invariant_witness :
    save ⟨some ('a' :: []), some ('b' :: [])⟩ ('c' :: []) false false =
      (true, ⟨some ('c' :: []), some ('a' :: [])⟩) ∧
    (FsState.mk (some ('c' :: [])) (some ('a' :: []))).backup =
      (FsState.mk (some ('a' :: [])) (some ('b' :: []))).manifest ∧
    (FsState.mk (some ('c' :: [])) (some ('a' :: []))).manifest = some ('c' :: []) :=
  ⟨by decide,
   (C4_save_backup_invariant ⟨some ('a' :: []), some ('b' :: [])⟩ ('c' :: []) false false).1
     ⟨some ('c' :: []), some ('a' :: [])⟩ (by decide)⟩

/-- C7 counterexample: an unsuccessful duplicates invocation caused by a
corrupt (present) lock file — diagnostics `error: failed to parse lock file
Cargo.lock` — is not a missing-lock condition, yet `detect_conflicts`
silently returns the empty report instead of a hard error. -/
theorem C7_counterexample :
    detect_conflicts false []
        ("error: failed to parse lock file Cargo.lock".data) true
        ("pkg v1.0.0".data) = Except.ok (mkConflictReport [] 0) ∧
    (mkConflictReport [] 0).conflicts = [] ∧
    (mkConflictReport [] 0).total_packages = 0 := by
  exact ⟨rfl, rfl, rfl⟩

/-- C7 (amended): when the duplicates invocation fails, the result is the
empty report (zero conflicts, zero total packages) exactly when the
diagnostics mention `Cargo.lock`, and a hard surfaced error otherwise. -/
theorem C7_detect_conflicts_failure_semantics (stdout1 stderr1 stdout2 : List Char)
    (s2 : Bool) :
    (containsSub stderr1 lockFileName = true →
      detect_conflicts false stdout1 stderr1 s2 stdout2 =
        Except.ok (mkConflictReport [] 0)) ∧
    (containsSub stderr1 lockFileName = false →
      detect_conflicts false stdout1 stderr1 s2 stdout2 =
        Except.error ("cargo tree failed: ".data ++ stderr1)) := by
  constructor <;> intro h <;> simp [detect_conflicts, h]

/-- Witness for C7 at concrete diagnostics of both kinds. -/
theorem C7_detect_conflicts_failure_semantics_witness :
    detect_conflicts false [] ("error: no Cargo.lock found".data) true [] =
      Except.ok (mkConflictReport [] 0) ∧
    detect_conflicts false [] ("network unreachable".data) true [] =
      Except.error ("cargo tree failed: ".data ++ "network unreachable".data) :=
  ⟨(C7_detect_conflicts_failure_semantics [] ("error: no Cargo.lock found".data) [] true).1
     (by decide),
   (C7_detect_conflicts_failure_semantics [] ("network unreachable".data) [] true).2
     (by decide)⟩

/-- C9 counterexample: declaring `b` before `a` and `a` before `b` parse to
the same `ManifestContent` (the `HashMap` keeps no insertion order), so the
list returned by `get_dependencies` cannot be the declaration order: here
it differs from the declaration order `b, a`. -/
theorem C9_counterexample :
    hashMapOfList
        [(('b' :: []), DependencySpec.simple ('1' :: [])),
         (('a' :: []), DependencySpec.simple ('2' :: []))] =
      hashMapOfList
        [(('a' :: []), DependencySpec.simple ('2' :: [])),
         (('b' :: []), DependencySpec.simple ('1' :: []))] ∧
    get_dependencies
        ⟨none,
         some (hashMapOfList
           [(('b' :: []), DependencySpec.simple ('1' :: [])),
            (('a' :: []), DependencySpec.simple ('2' :: []))]), none, none⟩ ≠
      [(('b' :: []), DependencySpec.simple ('1' :: [])),
       (('a' :: []), DependencySpec.simple ('2' :: []))] := by
  constructor
  · decide
  · decide

/-- C9 (amended): `get_dependencies` returns exactly the entries of the
direct `[dependencies]` map (empty when the section is absent), and the
dev-dependency and build-dependency sections never appear in and never
affect the result. -/
theorem C9_get_dependencies_direct_only (mc : ManifestContent) :
    (∀ deps, mc.dependencies = some deps → get_dependencies mc = deps) ∧
    (mc.dependencies = none → get_dependencies mc = []) ∧
    (∀ dev bld, get_dependencies ⟨mc.package, mc.dependencies, dev, bld⟩ =
      get_dependencies mc) := by
  refine ⟨?_, ?_, ?_⟩
  · intro deps h
    simp [get_dependencies, h]
  · intro h
    simp [get_dependencies, h]
  · intro dev bld
    simp [get_dependencies]

/-- Witness for C9 (amended) at a concrete manifest. -/
theorem C9_get_dependencies_direct_only_witness :
    get_dependencies
        ⟨none, some [(('a' :: []), DependencySpec.simple ('1' :: []))],
         some [(('d' :: []), DependencySpec.simple ('9' :: []))], none⟩ =
      [(('a' :: []), DependencySpec.simple ('1' :: []))] :=
  (C9_get_dependencies_direct_only
      ⟨none, some [(('a' :: []), DependencySpec.simple ('1' :: []))],
       some [(('d' :: []), DependencySpec.simple ('9' :: []))], none⟩).1
    [(('a' :: []), DependencySpec.simple ('1' :: []))] rfl

/-- C8: a declared dependency is reported unused iff neither its original
spelling, its underscore-normalised form, nor its hyphen-normalised form is
in the used-set built from the four textual extraction patterns; the
built-ins std, core, alloc, proc_macro and test are always in the used-set;
and a corpus importing only serde and tokio against a manifest declaring
serde, tokio and left-pad reports exactly left-pad. -/
theorem C8_find_unused_characterisation
    (declared : List (List Char × DependencySpec)) (corpus : List (List Char))
    (n : List Char) :
    (n ∈ find_unused_dependencies declared (find_used_dependencies corpus) ↔
      ((∃ spec, (n, spec) ∈ declared) ∧
        n ∉ find_used_dependencies corpus ∧
        hyphenToUnderscore n ∉ find_used_dependencies corpus ∧
        underscoreToHyphen n ∉ find_used_dependencies corpus)) ∧
    (∀ b, b ∈ stdCrates → b ∈ find_used_dependencies corpus) ∧
    find_unused_dependencies
        [("serde".data, DependencySpec.simple ('1' :: [])),
         ("tokio".data, DependencySpec.simple ('1' :: [])),
         ("left-pad".data, DependencySpec.simple ('1' :: []))]
        (find_used_dependencies [("use serde::Serialize;\nuse tokio;\n".data)]) =
      [("left-pad".data)] := by
  refine ⟨?_, ?_, by decide⟩
  · simp only [find_unused_dependencies, List.mem_filterMap]
    constructor
    · rintro ⟨⟨e1, e2⟩, he, hf⟩
      cases hcond : ((find_used_dependencies corpus).contains e1 ||
          (find_used_dependencies corpus).contains (hyphenToUnderscore e1) ||
          (find_used_dependencies corpus).contains (underscoreToHyphen e1)) with
      | true => rw [hcond] at hf; simp at hf
      | false =>
        rw [hcond] at hf
        simp at hf
        subst hf
        simp at hcond
        exact ⟨⟨e2, he⟩, hcond.1.1, hcond.1.2, hcond.2⟩
    · rintro ⟨⟨spec, hmem⟩, h1, h2, h3⟩
      refine ⟨(n, spec), hmem, ?_⟩
      have hc : ((find_used_dependencies corpus).contains n ||
          (find_used_dependencies corpus).contains (hyphenToUnderscore n) ||
          (find_used_dependencies corpus).contains (underscoreToHyphen n)) = false := by
        simp [h1, h2, h3]
      rw [hc]
      simp
  · intro b hb
    exact List.mem_append.mpr (Or.inr hb)

/-- Witness for C8: `std` is in the used-set of the empty corpus. -/
theorem C8_find_unused_characterisation_witness :
    ('s' :: 't' :: 'd' :: []) ∈ find_used_dependencies [] :=
  (C8_find_unused_characterisation [] [] ('x' :: [])).2.1
    ('s' :: 't' :: 'd' :: []) (by decide)

theorem dropWhile_idem (p : Char → Bool) (l : List Char) :
    (l.dropWhile p).dropWhile p = l.dropWhile p := by
  induction l with
  | nil => rfl
  | cons c cs ih =>
    by_cases h : p c
    · simp [List.dropWhile_cons, h, ih]
    · simp [List.dropWhile_cons, h]

theorem head?_dropWhile (p : Char → Bool) (l : List Char) (a : Char)
    (h : (l.dropWhile p).head? = some a) : p a = false := by
  induction l with
  | nil => simp at h
  | cons c cs ih =>
    by_cases hc : p c
    · rw [List.dropWhile_cons, if_pos hc] at h
      exact ih h
    · rw [List.dropWhile_cons, if_neg hc] at h
      simp at h
      rw [← h]
      exact Bool.eq_false_iff.mpr hc

theorem dropWhile_append_nil (p : Char → Bool) (l1 l2 : List Char)
    (h : l1.dropWhile p = []) : (l1 ++ l2).dropWhile p = l2.dropWhile p := by
  induction l1 with
  | nil => rfl
  | cons c cs ih =>
    by_cases hc : p c
    · rw [List.dropWhile_cons, if_pos hc] at h
      simp [List.dropWhile_cons, hc, ih h]
    · rw [List.dropWhile_cons, if_neg hc] at h
      simp at h

theorem dropWhile_append_ne_nil (p : Char → Bool) (l1 l2 : List Char)
    (h : l1.dropWhile p ≠ []) : (l1 ++ l2).dropWhile p = l1.dropWhile p ++ l2 := by
  induction l1 with
  | nil => simp at h
  | cons c cs ih =>
    by_cases hc : p c
    · rw [List.dropWhile_cons, if_pos hc] at h
      simp [List.dropWhile_cons, hc, ih h]
    · simp [List.dropWhile_cons, hc]

theorem takeWhile_all_append (p : Char → Bool) (l1 l2 : List Char)
    (h : ∀ c ∈ l1, p c = true) :
    (l1 ++ l2).takeWhile p = l1 ++ l2.takeWhile p ∧
    (l1 ++ l2).dropWhile p = l2.dropWhile p := by
  induction l1 with
  | nil => simp
  | cons c cs ih =>
    have hc : p c = true := h c (by simp)
    have ih2 := ih (fun d hd => h d (by simp [hd]))
    simp [List.takeWhile_cons, List.dropWhile_cons, hc, ih2.1, ih2.2]

theorem takeWhile_head_fails (p : Char → Bool) (l : List Char)
    (h : ∀ a, l.head? = some a → p a = false) :
    l.takeWhile p = [] ∧ l.dropWhile p = l := by
  cases l with
  | nil => simp
  | cons c cs =>
    have := h c rfl
    simp [List.takeWhile_cons, List.dropWhile_cons, this]

theorem trimLeft_eq_self (s : List Char)
    (h : ∀ a, s.head? = some a → isWsChar a = false) : trimLeft s = s :=
  (takeWhile_head_fails _ s h).2

theorem trimRight_eq_self (s : List Char)
    (h : ∀ a, s.getLast? = some a → isWsChar a = false) : trimRight s = s := by
  unfold trimRight
  have hh : ∀ a, s.reverse.head? = some a → isWsChar a = false := by
    intro a ha
    exact h a (by rw [← List.head?_reverse]; exact ha)
  rw [(takeWhile_head_fails _ s.reverse hh).2, List.reverse_reverse]

theorem tsm_eq_self (c : Char) (s : List Char)
    (h : ∀ a, s.head? = some a → a ≠ c) : trimStartMatches c s = s := by
  unfold trimStartMatches
  refine (takeWhile_head_fails _ s ?_).2
  intro a ha
  exact beq_eq_false_iff_ne.mpr (h a ha)

theorem trimRight_cons_ne_nil (c : Char) (s : List Char) (h : trimRight s ≠ []) :
    trimRight (c :: s) = c :: trimRight s := by
  unfold trimRight at h ⊢
  have hne : s.reverse.dropWhile (fun a => isWsChar a) ≠ [] := by
    intro hx
    exact h (by rw [hx]; rfl)
  rw [List.reverse_cons, dropWhile_append_ne_nil _ _ _ hne, List.reverse_append]
  rfl

theorem trimRight_cons_nil (c : Char) (s : List Char) (h : trimRight s = []) :
    trimRight (c :: s) = if isWsChar c then [] else [c] := by
  unfold trimRight at h ⊢
  have hnil : s.reverse.dropWhile (fun a => isWsChar a) = [] := by
    have h2 := congrArg List.reverse h
    rwa [List.reverse_reverse, List.reverse_nil] at h2
  rw [List.reverse_cons, dropWhile_append_nil _ _ _ hnil]
  by_cases hc : isWsChar c <;> simp [List.dropWhile, hc]

theorem trimRight_idem (s : List Char) : trimRight (trimRight s) = trimRight s := by
  unfold trimRight
  rw [List.reverse_reverse, dropWhile_idem]

theorem trimRight_getLast_not_ws (s : List Char) (a : Char)
    (h : (trimRight s).getLast? = some a) : isWsChar a = false := by
  unfold trimRight at h
  rw [← List.head?_reverse, List.reverse_reverse] at h
  exact head?_dropWhile _ _ _ h

theorem trimLeft_idem (s : List Char) : trimLeft (trimLeft s) = trimLeft s :=
  dropWhile_idem _ s

theorem natDigitsAux_fuel : ∀ (n f1 f2 : Nat), n < f1 → n < f2 →
    natDigitsAux f1 n = natDigitsAux f2 n := by
  intro n
  induction n using Nat.strong_induction_on with
  | _ n ih =>
    intro f1 f2 h1 h2
    match f1, f2 with
    | fa + 1, fb + 1 =>
      by_cases hn : n < 10
      · simp [natDigitsAux, hn]
      · have hd : n / 10 < n := Nat.div_lt_self (by omega) (by omega)
        simp only [natDigitsAux, if_neg hn]
        rw [ih (n / 10) hd fa fb (by omega) (by omega)]

theorem natDigits_lt (n : Nat) (h : n < 10) : natDigits n = [Char.ofNat (48 + n)] := by
  simp [natDigits, natDigitsAux, h]

theorem natDigits_ge (n : Nat) (h : ¬ n < 10) :
    natDigits n = natDigits (n / 10) ++ [Char.ofNat (48 + n % 10)] := by
  have hd : n / 10 < n := Nat.div_lt_self (by omega) (by omega)
  unfold natDigits
  conv_lhs => rw [natDigitsAux]
  rw [if_neg h, natDigitsAux_fuel (n / 10) n (n / 10 + 1) hd (by omega)]

theorem natDigits_ne_nil (n : Nat) : natDigits n ≠ [] := by
  by_cases h : n < 10
  · rw [natDigits_lt n h]
    simp
  · rw [natDigits_ge n h]
    simp

theorem natDigits_chars (n : Nat) :
    ∀ c ∈ natDigits n, ∃ k, k < 10 ∧ c = Char.ofNat (48 + k) := by
  induction n using Nat.strong_induction_on with
  | _ n ih =>
    intro c hc
    by_cases h : n < 10
    · rw [natDigits_lt n h] at hc
      simp at hc
      exact ⟨n, h, hc⟩
    · rw [natDigits_ge n h] at hc
      rcases List.mem_append.mp hc with h1 | h2
      · exact ih (n / 10) (Nat.div_lt_self (by omega) (by omega)) c h1
      · simp at h2
        exact ⟨n % 10, by omega, h2⟩

theorem digitChar_facts (k : Nat) (h : k < 10) :
    isDigitChar (Char.ofNat (48 + k)) = true ∧
    isWsChar (Char.ofNat (48 + k)) = false ∧
    opChars.contains (Char.ofNat (48 + k)) = false ∧
    Char.ofNat (48 + k) ≠ '.' ∧
    digitVal (Char.ofNat (48 + k)) = k := by
  interval_cases k <;> refine ⟨by decide, by decide, by decide, by decide, by decide⟩

theorem natDigits_head_ne_zero (n : Nat) (h : n ≠ 0) :
    ∀ a, (natDigits n).head? = some a → a ≠ '0' := by
  induction n using Nat.strong_induction_on with
  | _ n ih =>
    intro a ha
    by_cases hn : n < 10
    · rw [natDigits_lt n hn] at ha
      simp at ha
      subst ha
      interval_cases n
      · exact absurd rfl h
      all_goals decide
    · rw [natDigits_ge n hn] at ha
      have hne := natDigits_ne_nil (n / 10)
      rw [List.head?_append_of_ne_nil _ hne] at ha
      exact ih (n / 10) (Nat.div_lt_self (by omega) (by omega)) (by omega) a ha

theorem natOfDigits_append_one (a : List Char) (c : Char) :
    natOfDigits (a ++ [c]) = 10 * natOfDigits a + digitVal c := by
  simp [natOfDigits, List.foldl_append]
  omega

theorem natOfDigits_natDigits (n : Nat) : natOfDigits (natDigits n) = n := by
  induction n using Nat.strong_induction_on with
  | _ n ih =>
    by_cases h : n < 10
    · rw [natDigits_lt n h]
      have := (digitChar_facts n h).2.2.2.2
      simp [natOfDigits, this]
    · rw [natDigits_ge n h, natOfDigits_append_one,
        ih (n / 10) (Nat.div_lt_self (by omega) (by omega)),
        (digitChar_facts (n % 10) (by omega)).2.2.2.2]
      omega

theorem natDigits_not_ws (n : Nat) : ∀ c ∈ natDigits n, isWsChar c = false := by
  intro c hc
  obtain ⟨k, hk, rfl⟩ := natDigits_chars n c hc
  exact (digitChar_facts k hk).2.1

theorem natDigits_not_dot (n : Nat) : ∀ c ∈ natDigits n, c ≠ '.' := by
  intro c hc
  obtain ⟨k, hk, rfl⟩ := natDigits_chars n c hc
  exact (digitChar_facts k hk).2.2.2.1

theorem natDigits_all_digits (n : Nat) : ∀ c ∈ natDigits n, isDigitChar c = true := by
  intro c hc
  obtain ⟨k, hk, rfl⟩ := natDigits_chars n c hc
  exact (digitChar_facts k hk).1

theorem parseNumPart_natDigits (n : Nat) (rest : List Char)
    (hrest : ∀ r, rest.head? = some r → isDigitChar r = false) :
    parseNumPart (natDigits n ++ rest) = some (n, rest) := by
  have htw := takeWhile_all_append isDigitChar (natDigits n) rest (natDigits_all_digits n)
  have hhf := takeWhile_head_fails isDigitChar rest hrest
  unfold parseNumPart
  rw [htw.1, hhf.1, htw.2, hhf.2, List.append_nil]
  have hne : (natDigits n).isEmpty = false := by
    cases h : natDigits n with
    | nil => exact absurd h (natDigits_ne_nil n)
    | cons a l => rfl
  have hzero : (decide ((natDigits n).head? = some '0') &&
      decide ((natDigits n).length > 1)) = false := by
    by_cases hn : n = 0
    · subst hn
      have : natDigits 0 = ['0'] := by decide
      rw [this]
      simp
    · have := natDigits_head_ne_zero n hn
      cases hh : (natDigits n).head? with
      | none =>
        cases hc : natDigits n with
        | nil => exact absurd hc (natDigits_ne_nil n)
        | cons a l => rw [hc] at hh; simp at hh
      | some a =>
        have hne0 := this a hh
        simp [hh, hne0]
  simp only [hne, hzero, Bool.false_eq_true, if_false, natOfDigits_natDigits n]

theorem parseVersion_canonical (x y z : Nat) :
    parseVersion (natDigits x ++ '.' :: (natDigits y ++ '.' :: natDigits z)) =
      some (mkVer x y z) := by
  have h1 := parseNumPart_natDigits x ('.' :: (natDigits y ++ '.' :: natDigits z))
    (by intro r hr; simp at hr; rw [← hr]; decide)
  have h2 := parseNumPart_natDigits y ('.' :: natDigits z)
    (by intro r hr; simp at hr; rw [← hr]; decide)
  have h3 := parseNumPart_natDigits z []
    (by intro r hr; simp at hr)
  rw [List.append_nil] at h3
  unfold parseVersion
  rw [h1]
  simp only
  rw [h2]
  simp only
  rw [h3]
  rfl

theorem parseVersion_two_components (x y : Nat) :
    parseVersion (natDigits x ++ '.' :: natDigits y) = none := by
  have h1 := parseNumPart_natDigits x ('.' :: natDigits y)
    (by intro r hr; simp at hr; rw [← hr]; decide)
  have h2 := parseNumPart_natDigits y []
    (by intro r hr; simp at hr)
  rw [List.append_nil] at h2
  unfold parseVersion
  rw [h1]
  simp only
  rw [h2]

theorem parseVersion_one_component (x : Nat) :
    parseVersion (natDigits x) = none := by
  have h1 := parseNumPart_natDigits x [] (by intro r hr; simp at hr)
  rw [List.append_nil] at h1
  unfold parseVersion
  rw [h1]

theorem splitDot_no_dot (xs : List Char) (h : ∀ c ∈ xs, c ≠ '.') :
    splitDot xs = [xs] := by
  induction xs with
  | nil => rfl
  | cons c cs ih =>
    have hc : c ≠ '.' := h c (by simp)
    rw [splitDot, if_neg hc, ih (fun d hd => h d (by simp [hd]))]

theorem splitDot_append_dot (xs ys : List Char) (h : ∀ c ∈ xs, c ≠ '.') :
    splitDot (xs ++ '.' :: ys) = xs :: splitDot ys := by
  induction xs with
  | nil => simp [splitDot]
  | cons c cs ih =>
    have hc : c ≠ '.' := h c (by simp)
    rw [List.cons_append, splitDot, if_neg hc, ih (fun d hd => h d (by simp [hd]))]

theorem stripOps_eq_self (s : List Char)
    (h : ∀ a, s.head? = some a → opChars.contains a = false) : stripOps s = s := by
  have hne : ∀ c, c ∈ opChars → ∀ a, s.head? = some a → a ≠ c := by
    intro c hc a ha heq
    subst heq
    have hcf := h a ha
    simp at hcf
    exact hcf (by simpa [opChars] using hc)
  unfold stripOps
  rw [tsm_eq_self '^' s (hne '^' (by decide)), tsm_eq_self '~' s (hne '~' (by decide)),
    tsm_eq_self '=' s (hne '=' (by decide)), tsm_eq_self '>' s (hne '>' (by decide)),
    tsm_eq_self '<' s (hne '<' (by decide))]

theorem rustTrim_eq_self (s : List Char)
    (h : ∀ c ∈ s, isWsChar c = false) : rustTrim s = s := by
  unfold rustTrim
  rw [trimRight_eq_self s (fun a ha => h a (List.mem_of_mem_getLast? ha)),
    trimLeft_eq_self s (fun a ha => h a (List.mem_of_mem_head? ha))]

theorem cleaned_eq_self (s : List Char)
    (hws : ∀ c ∈ s, isWsChar c = false)
    (hop : ∀ a, s.head? = some a → opChars.contains a = false) :
    rustTrim (stripOps (rustTrim s)) = s := by
  rw [rustTrim_eq_self s hws, stripOps_eq_self s hop, rustTrim_eq_self s hws]

theorem opChars_not_ws : ∀ c ∈ opChars, isWsChar c = false := by decide

theorem digits_dots_not_ws (x : List Char)
    (h : ∀ c ∈ x, (∃ k, k < 10 ∧ c = Char.ofNat (48 + k)) ∨ c = '.') :
    ∀ c ∈ x, isWsChar c = false := by
  intro c hc
  rcases h c hc with ⟨k, hk, rfl⟩ | rfl
  · exact (digitChar_facts k hk).2.1
  · decide

theorem pvr_canonical (x y z : Nat) :
    parse_version_req (natDigits x ++ '.' :: (natDigits y ++ '.' :: natDigits z)) =
      some (mkVer x y z) := by
  unfold parse_version_req
  rw [cleaned_eq_self _ ?hws ?hop]
  case hws =>
    refine digits_dots_not_ws _ ?_
    intro c hc
    simp at hc
    rcases hc with h | h | h | h
    · exact Or.inl (natDigits_chars x c h)
    · exact Or.inr h
    · exact Or.inl (natDigits_chars y c h)
    rcases h with h | h
    · exact Or.inr h
    · exact Or.inl (natDigits_chars z c h)
  case hop =>
    intro a ha
    rw [List.head?_append_of_ne_nil _ (natDigits_ne_nil x)] at ha
    obtain ⟨k, hk, rfl⟩ := natDigits_chars x a (List.mem_of_mem_head? ha)
    exact (digitChar_facts k hk).2.2.1
  unfold pvrCore
  rw [parseVersion_canonical]

theorem natDigits_zero : natDigits 0 = ['0'] := by decide

theorem pvr_two (x y : Nat) :
    parse_version_req (natDigits x ++ '.' :: natDigits y) = some (mkVer x y 0) := by
  unfold parse_version_req
  rw [cleaned_eq_self _ ?hws ?hop]
  case hws =>
    refine digits_dots_not_ws _ ?_
    intro c hc
    simp at hc
    rcases hc with h | h | h
    · exact Or.inl (natDigits_chars x c h)
    · exact Or.inr h
    · exact Or.inl (natDigits_chars y c h)
  case hop =>
    intro a ha
    rw [List.head?_append_of_ne_nil _ (natDigits_ne_nil x)] at ha
    obtain ⟨k, hk, rfl⟩ := natDigits_chars x a (List.mem_of_mem_head? ha)
    exact (digitChar_facts k hk).2.2.1
  unfold pvrCore
  rw [parseVersion_two_components]
  have hnorm : normalize_version (natDigits x ++ '.' :: natDigits y) =
      natDigits x ++ '.' :: (natDigits y ++ '.' :: natDigits 0) := by
    unfold normalize_version
    rw [splitDot_append_dot _ _ (natDigits_not_dot x),
      splitDot_no_dot _ (natDigits_not_dot y), natDigits_zero]
    simp
  rw [hnorm, parseVersion_canonical]

theorem pvr_one (x : Nat) :
    parse_version_req (natDigits x) = some (mkVer x 0 0) := by
  unfold parse_version_req
  rw [cleaned_eq_self _ ?hws ?hop]
  case hws =>
    refine digits_dots_not_ws _ ?_
    intro c hc
    exact Or.inl (natDigits_chars x c hc)
  case hop =>
    intro a ha
    obtain ⟨k, hk, rfl⟩ := natDigits_chars x a (List.mem_of_mem_head? ha)
    exact (digitChar_facts k hk).2.2.1
  unfold pvrCore
  rw [parseVersion_one_component]
  have hnorm : normalize_version (natDigits x) =
      natDigits x ++ '.' :: (natDigits 0 ++ '.' :: natDigits 0) := by
    unfold normalize_version
    rw [splitDot_no_dot _ (natDigits_not_dot x), natDigits_zero]
    simp
  rw [hnorm, parseVersion_canonical]

theorem stripOps_cons_self (op : Char) (hop : op ∈ opChars) (x : List Char)
    (hstages : ∀ c, c ∈ opChars → trimStartMatches c x = x) :
    stripOps (op :: x) = x := by
  have hself : ∀ c, trimStartMatches c (c :: x) = trimStartMatches c x := by
    intro c
    simp [trimStartMatches, List.dropWhile_cons]
  have hskip : ∀ c, c ≠ op → trimStartMatches c (op :: x) = op :: x := by
    intro c hc
    refine tsm_eq_self c (op :: x) ?_
    intro a ha
    simp at ha
    subst ha
    exact fun h => hc h.symm
  simp only [opChars, List.mem_cons, List.not_mem_nil, or_false] at hop
  rcases hop with rfl | rfl | rfl | rfl | rfl
  · rw [stripOps, hself, hstages '^' (by decide), hstages '~' (by decide),
      hstages '=' (by decide), hstages '>' (by decide), hstages '<' (by decide)]
  · rw [stripOps, hskip '^' (by decide), hself, hstages '~' (by decide),
      hstages '=' (by decide), hstages '>' (by decide), hstages '<' (by decide)]
  · rw [stripOps, hskip '^' (by decide), hskip '~' (by decide), hself,
      hstages '=' (by decide), hstages '>' (by decide), hstages '<' (by decide)]
  · rw [stripOps, hskip '^' (by decide), hskip '~' (by decide),
      hskip '=' (by decide), hself, hstages '>' (by decide), hstages '<' (by decide)]
  · rw [stripOps, hskip '^' (by decide), hskip '~' (by decide),
      hskip '=' (by decide), hskip '>' (by decide), hself, hstages '<' (by decide)]

theorem pvr_op_strip (op : Char) (hop : op ∈ opChars) (v : List Char)
    (hv : ∀ a, (rustTrim v).head? = some a → opChars.contains a = false) :
    parse_version_req (op :: v) = parse_version_req v := by
  have hopws : isWsChar op = false := opChars_not_ws op hop
  by_cases hx : trimRight v = []
  · have ht : rustTrim v = [] := by
      unfold rustTrim
      rw [hx]
      rfl
    have h1 : trimRight (op :: v) = [op] := by
      rw [trimRight_cons_nil op v hx, if_neg (by simp [hopws])]
    have h2 : rustTrim (op :: v) = [op] := by
      unfold rustTrim
      rw [h1]
      refine trimLeft_eq_self [op] ?_
      intro a ha
      simp at ha
      exact ha ▸ hopws
    have h3 : stripOps [op] = [] := by
      simp only [opChars, List.mem_cons, List.not_mem_nil, or_false] at hop
      rcases hop with rfl | rfl | rfl | rfl | rfl <;> decide
    unfold parse_version_req
    rw [h2, ht, h3]
    rfl
  · -- x := trimRight v is nonempty; its last char is not whitespace.
    have hxlast : ∀ a, (trimRight v).getLast? = some a → isWsChar a = false :=
      trimRight_getLast_not_ws v
    -- every strip stage leaves x unchanged
    have hxhead : ∀ c, c ∈ opChars → ∀ a, (trimRight v).head? = some a → a ≠ c := by
      intro c hc a ha heq
      subst heq
      by_cases hwa : isWsChar a = true
      · rw [opChars_not_ws a hc] at hwa
        exact absurd hwa (by simp)
      · have hxa : ∃ x2, trimRight v = a :: x2 := by
          cases hcc : trimRight v with
          | nil => rw [hcc] at ha; simp at ha
          | cons b x2 =>
            rw [hcc] at ha
            simp at ha
            exact ⟨x2, by rw [ha]⟩
        obtain ⟨x2, hx2⟩ := hxa
        have htl : rustTrim v = trimRight v := by
          unfold rustTrim trimLeft
          rw [hx2]
          simp [List.dropWhile_cons, hwa]
        have := hv a (by rw [htl, hx2]; rfl)
        simp at this
        exact this (by simpa [opChars] using hc)
    have hstages : ∀ c, c ∈ opChars → trimStartMatches c (trimRight v) = trimRight v :=
      fun c hc => tsm_eq_self c (trimRight v) (hxhead c hc)
    have h1 : trimRight (op :: v) = op :: trimRight v := trimRight_cons_ne_nil op v hx
    have h2 : rustTrim (op :: v) = op :: trimRight v := by
      unfold rustTrim
      rw [h1]
      refine trimLeft_eq_self _ ?_
      intro a ha
      simp at ha
      exact ha ▸ hopws
    have h3 : stripOps (op :: trimRight v) = trimRight v :=
      stripOps_cons_self op hop (trimRight v) hstages
    have h4 : rustTrim (trimRight v) = rustTrim v := by
      unfold rustTrim
      rw [trimRight_idem]
    have h5 : stripOps (rustTrim v) = rustTrim v := stripOps_eq_self _ hv
    have h6 : rustTrim (rustTrim v) = rustTrim v := by
      have htne : rustTrim v ≠ [] := by
        intro hnil
        have hall : ∀ c ∈ trimRight v, isWsChar c = true := by
          have := List.dropWhile_eq_nil_iff.mp hnil
          simpa [rustTrim, trimLeft] using this
        obtain ⟨a, hga⟩ : ∃ a, (trimRight v).getLast? = some a := by
          cases hgg : (trimRight v).getLast? with
          | none =>
            cases hcc : trimRight v with
            | nil => exact absurd hcc hx
            | cons b x2 =>
              rw [hcc] at hgg
              simp [List.getLast?_eq_getLast] at hgg
          | some a => exact ⟨a, rfl⟩
        have h7 := hxlast a hga
        have h8 := hall a (List.mem_of_mem_getLast? hga)
        rw [h7] at h8
        exact absurd h8 (by simp)
      -- rustTrim v is a suffix of trimRight v, so it keeps its last char
      have hsuffix : trimRight v =
          (trimRight v).takeWhile (fun c => isWsChar c) ++ rustTrim v := by
        unfold rustTrim trimLeft
        rw [List.takeWhile_append_dropWhile]
      have hlast2 : ∀ a, (rustTrim v).getLast? = some a → isWsChar a = false := by
        intro a ha
        refine hxlast a ?_
        rw [hsuffix, List.getLast?_append_of_ne_nil _ htne]
        exact ha
      rw [rustTrim, trimRight_eq_self (rustTrim v) hlast2, rustTrim, trimLeft_idem]
    unfold parse_version_req
    rw [h2, h3, h4, h5, h6]

/-- C2 counterexample: extraction succeeds on `^1.0.0`, `~` is one of the
five operators, yet extraction of `~` ++ `^1.0.0` fails instead of equalling
extraction of `^1.0.0` — the operator-stripping law as stated is false,
because each operator is stripped once in the fixed order `^ ~ = > <` and a
later stage never strips an earlier operator again. -/
theorem C2_counterexample :
    (parse_version_req ("^1.0.0".data)).isSome = true ∧
    '~' ∈ opChars ∧
    parse_version_req ('~' :: ("^1.0.0".data)) = none := by
  refine ⟨by decide, by decide, by decide⟩

/-- C2 (amended): extraction of the numeral `N` yields (N,0,0); extraction
of `N.M` yields (N,M,0); extraction of canonical `X.Y.Z` yields exactly
(X,Y,Z); and for every operator `op` in `^ ~ = > <`, extraction of `op ++ V`
equals extraction of `V` for every `V` whose first non-whitespace character
is not itself an operator character (without that proviso the law fails,
because the five operators are each stripped once in a fixed trial order). -/
theorem C2_extract_concrete_version_laws :
    (∀ n : Nat, parse_version_req (natDigits n) = some (mkVer n 0 0)) ∧
    (∀ n m : Nat,
      parse_version_req (natDigits n ++ '.' :: natDigits m) = some (mkVer n m 0)) ∧
    (∀ x y z : Nat,
      parse_version_req (natDigits x ++ '.' :: (natDigits y ++ '.' :: natDigits z)) =
        some (mkVer x y z)) ∧
    (∀ op, op ∈ opChars → ∀ v : List Char,
      (∀ a, (rustTrim v).head? = some a → opChars.contains a = false) →
      parse_version_req (op :: v) = parse_version_req v) :=
  ⟨pvr_one, pvr_two, pvr_canonical, pvr_op_strip⟩

/-- Witness for C2 at concrete inputs: stripping `^` from `^1.2.3`. -/
theorem C2_extract_concrete_version_laws_witness :
    parse_version_req ('^' :: ("1.2.3".data)) = parse_version_req ("1.2.3".data) ∧
    parse_version_req ("1.2.3".data) = some (mkVer 1 2 3) :=
  ⟨C2_extract_concrete_version_laws.2.2.2 '^' (by decide) ("1.2.3".data) (by decide),
   by decide⟩

theorem munchLit_sound (lit s s2 : List Char) (h : munchLit lit s = some s2) :
    s = lit ++ s2 := by
  unfold munchLit at h
  split at h
  · rename_i hpre
    simp at h
    obtain ⟨t, ht⟩ := List.isPrefixOf_iff_prefix.mp hpre
    subst ht
    rw [← h]
    simp
  · simp at h

theorem munchQuoted_sound (s v rest : List Char) (h : munchQuoted s = some (v, rest)) :
    s = v ++ '"' :: rest ∧ v ≠ [] ∧ '"' ∉ v := by
  unfold munchQuoted at h
  split at h
  · rename_i rest0 heq
    dsimp only [] at h
    split at h
    · simp at h
    · rename_i hne
      simp at h
      obtain ⟨rfl, rfl⟩ := h
      refine ⟨?_, by simpa using hne, ?_⟩
      · conv_lhs => rw [← @List.takeWhile_append_dropWhile Char (fun c => decide (c ≠ '"')) s]
        rw [heq]
        simp [ne_eq, decide_not]
      · intro hq
        have := List.mem_takeWhile_imp hq
        simp at this
  · simp at h

theorem matchSimple_sound (name s c1 v rest : List Char)
    (h : matchSimple name s = some (c1, v, rest)) :
    s = c1 ++ v ++ '"' :: rest ∧ v ≠ [] ∧ '"' ∉ v := by
  unfold matchSimple at h
  dsimp only [munchWs] at h
  split at h
  · simp at h
  · rename_i s2 hlit
    split at h
    · rename_i s4 heq4
      split at h
      · rename_i s6 heq6
        split at h
        · simp at h
        · rename_i v0 rest0 hq
          simp at h
          obtain ⟨rfl, rfl, rfl⟩ := h
          obtain ⟨hs6, hvne, hvq⟩ := munchQuoted_sound _ _ _ hq
          have hlit2 := munchLit_sound _ _ _ hlit
          have hsplit : s = s.takeWhile (fun c => isWsChar c) ++
              s.dropWhile (fun c => isWsChar c) := by
            rw [List.takeWhile_append_dropWhile]
          have hsplit2 : s2 = s2.takeWhile (fun c => isWsChar c) ++
              s2.dropWhile (fun c => isWsChar c) := by
            rw [List.takeWhile_append_dropWhile]
          have hsplit4 : s4 = s4.takeWhile (fun c => isWsChar c) ++
              s4.dropWhile (fun c => isWsChar c) := by
            rw [List.takeWhile_append_dropWhile]
          refine ⟨?_, hvne, hvq⟩
          conv_lhs => rw [hsplit, hlit2, hsplit2, heq4, hsplit4, heq6, hs6]
          simp
      · simp at h
    · simp at h

theorem matchDetailed_sound (name s c1 v rest : List Char)
    (h : matchDetailed name s = some (c1, v, rest)) :
    s = c1 ++ v ++ '"' :: rest ∧ v ≠ [] ∧ '"' ∉ v := by
  unfold matchDetailed at h
  dsimp only [munchWs] at h
  split at h
  · simp at h
  · rename_i s2 hlit
    split at h
    · rename_i s4 heq4
      split at h
      · rename_i s6 heq6
        split at h
        · simp at h
        · rename_i s8 hlit8
          split at h
          · rename_i s10 heq10
            split at h
            · rename_i s12 heq12
              split at h
              · simp at h
              · rename_i v0 rest0 hq
                simp at h
                obtain ⟨rfl, rfl, rfl⟩ := h
                obtain ⟨hs12, hvne, hvq⟩ := munchQuoted_sound _ _ _ hq
                have hlit2 := munchLit_sound _ _ _ hlit
                have hlit8b := munchLit_sound _ _ _ hlit8
                have hsplit : s = s.takeWhile (fun c => isWsChar c) ++
                    s.dropWhile (fun c => isWsChar c) := by
                  rw [List.takeWhile_append_dropWhile]
                have hsplit2 : s2 = s2.takeWhile (fun c => isWsChar c) ++
                    s2.dropWhile (fun c => isWsChar c) := by
                  rw [List.takeWhile_append_dropWhile]
                have hsplit4 : s4 = s4.takeWhile (fun c => isWsChar c) ++
                    s4.dropWhile (fun c => isWsChar c) := by
                  rw [List.takeWhile_append_dropWhile]
                have hsplit6 : s6 = s6.takeWhile (fun c => isWsChar c) ++
                    s6.dropWhile (fun c => isWsChar c) := by
                  rw [List.takeWhile_append_dropWhile]
                have hsplit8 : s8 = s8.takeWhile (fun c => isWsChar c) ++
                    s8.dropWhile (fun c => isWsChar c) := by
                  rw [List.takeWhile_append_dropWhile]
                have hsplit10 : s10 = s10.takeWhile (fun c => isWsChar c) ++
                    s10.dropWhile (fun c => isWsChar c) := by
                  rw [List.takeWhile_append_dropWhile]
                refine ⟨?_, hvne, hvq⟩
                conv_lhs => rw [hsplit, hlit2, hsplit2, heq4, hsplit4, heq6,
                  hsplit6, hlit8b, hsplit8, heq10, hsplit10, heq12, hs12]
                simp
            · simp at h
          · simp at h
      · simp at h
    · simp at h

theorem findAfterNl_sound {α : Type} (m : List Char → Option α) (s : List Char)
    (p : List Char) (r : α) (h : findAfterNl m s = some (p, r)) :
    ∃ q, s = p ++ q ∧ m q = some r ∧ p.getLast? = some '\n' := by
  induction s generalizing p with
  | nil => simp [findAfterNl] at h
  | cons c cs ih =>
    by_cases hc : c = '\n'
    · subst hc
      rw [findAfterNl, if_pos rfl] at h
      cases hm : m cs with
      | some r0 =>
        rw [hm] at h
        simp at h
        obtain ⟨rfl, rfl⟩ := h
        exact ⟨cs, rfl, hm, rfl⟩
      | none =>
        rw [hm] at h
        cases hf : findAfterNl m cs with
        | none => rw [hf] at h; simp at h
        | some pr =>
          obtain ⟨p0, r0⟩ := pr
          rw [hf] at h
          simp at h
          obtain ⟨rfl, rfl⟩ := h
          obtain ⟨q, hq, hmq, hlast⟩ := ih p0 hf
          refine ⟨q, by simp [hq], hmq, ?_⟩
          rw [List.getLast?_cons]
          simp [hlast]
    · rw [findAfterNl, if_neg hc] at h
      cases hf : findAfterNl m cs with
      | none => rw [hf] at h; simp at h
      | some pr =>
        obtain ⟨p0, r0⟩ := pr
        rw [hf] at h
        simp at h
        obtain ⟨rfl, rfl⟩ := h
        obtain ⟨q, hq, hmq, hlast⟩ := ih p0 hf
        refine ⟨q, by simp [hq], hmq, ?_⟩
        rw [List.getLast?_cons]
        simp [hlast]

theorem findFromLineStarts_sound {α : Type} (m : List Char → Option α) (s : List Char)
    (p : List Char) (r : α) (h : findFromLineStarts m s = some (p, r)) :
    ∃ q, s = p ++ q ∧ m q = some r ∧ (p = [] ∨ p.getLast? = some '\n') := by
  unfold findFromLineStarts at h
  cases hm : m s with
  | some r0 =>
    rw [hm] at h
    simp at h
    obtain ⟨rfl, rfl⟩ := h
    exact ⟨s, rfl, hm, Or.inl rfl⟩
  | none =>
    rw [hm] at h
    obtain ⟨q, hq, hmq, hlast⟩ := findAfterNl_sound m s p r h
    exact ⟨q, hq, hmq, Or.inr hlast⟩

theorem findAfterNl_complete {α : Type} (m : List Char → Option α) (p q : List Char)
    (r : α) (hp : p ≠ []) (hlast : p.getLast? = some '\n') (hm : m q = some r) :
    (findAfterNl m (p ++ q)).isSome = true := by
  induction p with
  | nil => exact absurd rfl hp
  | cons c p' ih =>
    cases hp' : p' with
    | nil =>
      subst hp'
      simp at hlast
      subst hlast
      rw [List.cons_append, findAfterNl, if_pos rfl]
      simp [hm]
    | cons d p'' =>
      subst hp'
      have hlast' : (d :: p'').getLast? = some '\n' := by
        rwa [List.getLast?_cons_cons] at hlast
      have ihh := ih (by simp) hlast'
      rw [List.cons_append, findAfterNl]
      by_cases hc : c = '\n'
      · rw [if_pos hc]
        cases hmq : m (d :: p'' ++ q) with
        | some r0 => simp
        | none =>
          cases hf : findAfterNl m (d :: p'' ++ q) with
          | none => rw [hf] at ihh; simp at ihh
          | some pr => simp [hf]
      · rw [if_neg hc]
        cases hf : findAfterNl m (d :: p'' ++ q) with
        | none => rw [hf] at ihh; simp at ihh
        | some pr => simp [hf]

theorem findFromLineStarts_complete {α : Type} (m : List Char → Option α)
    (p q : List Char) (r : α) (hp : p = [] ∨ p.getLast? = some '\n')
    (hm : m q = some r) : (findFromLineStarts m (p ++ q)).isSome = true := by
  unfold findFromLineStarts
  cases hms : m (p ++ q) with
  | some r0 => simp
  | none =>
    rcases hp with rfl | hlast
    · rw [List.nil_append] at hms
      rw [hms] at hm
      exact absurd hm (by simp)
    · have hpne : p ≠ [] := by
        intro hnil
        rw [hnil] at hlast
        simp at hlast
      exact findAfterNl_complete m p q r hpne hlast hm

theorem findAfterNl_min {α : Type} (m : List Char → Option α) (s pre : List Char)
    (r : α) (h : findAfterNl m s = some (pre, r)) :
    ∀ p q, s = p ++ q → p ≠ [] → p.getLast? = some '\n' →
      p.length < pre.length → m q = none := by
  induction s generalizing pre with
  | nil => simp [findAfterNl] at h
  | cons c cs ih =>
    intro p q hs hp hplast hlen
    cases p with
    | nil => exact absurd rfl hp
    | cons a p1 =>
      simp at hs
      obtain ⟨rfl, hcs⟩ := hs
      rw [findAfterNl] at h
      by_cases hc : c = '\n'
      · rw [if_pos hc] at h
        cases hm : m cs with
        | some r0 =>
          rw [hm] at h
          simp at h
          obtain ⟨rfl, rfl⟩ := h
          simp at hlen
        | none =>
          rw [hm] at h
          cases hf : findAfterNl m cs with
          | none => rw [hf] at h; simp at h
          | some pr =>
            obtain ⟨p0, r0⟩ := pr
            rw [hf] at h
            simp at h
            obtain ⟨rfl, rfl⟩ := h
            cases hp1 : p1 with
            | nil =>
              subst hp1
              simp at hcs
              rw [hcs] at hm
              exact hm
            | cons b p2 =>
              subst hp1
              refine ih p0 hf (b :: p2) q hcs (by simp) ?_ ?_
              · rwa [List.getLast?_cons_cons] at hplast
              · simp at hlen ⊢
                omega
      · rw [if_neg hc] at h
        cases hf : findAfterNl m cs with
        | none => rw [hf] at h; simp at h
        | some pr =>
          obtain ⟨p0, r0⟩ := pr
          rw [hf] at h
          simp at h
          obtain ⟨rfl, rfl⟩ := h
          cases hp1 : p1 with
          | nil =>
            subst hp1
            simp at hplast
            exact absurd hplast hc
          | cons b p2 =>
            subst hp1
            refine ih p0 hf (b :: p2) q hcs (by simp) ?_ ?_
            · rwa [List.getLast?_cons_cons] at hplast
            · simp at hlen ⊢
              omega

theorem findFromLineStarts_min {α : Type} (m : List Char → Option α) (s pre : List Char)
    (r : α) (h : findFromLineStarts m s = some (pre, r)) :
    ∀ p q, s = p ++ q → (p = [] ∨ p.getLast? = some '\n') →
      p.length < pre.length → m q = none := by
  intro p q hs hp hlen
  unfold findFromLineStarts at h
  cases hm : m s with
  | some r0 =>
    rw [hm] at h
    simp at h
    obtain ⟨rfl, rfl⟩ := h
    simp at hlen
  | none =>
    rw [hm] at h
    rcases hp with rfl | hplast
    · rw [List.nil_append] at hs
      rw [← hs]
      exact hm
    · refine findAfterNl_min m s pre r h p q hs ?_ hplast hlen
      intro hnil
      rw [hnil] at hplast
      simp at hplast

theorem splitNl_ne_nil (s : List Char) : splitNl s ≠ [] := by
  cases s with
  | nil => simp [splitNl]
  | cons c cs =>
    rw [splitNl]
    by_cases hc : c = '\n'
    · simp [hc]
    · rw [if_neg hc]
      cases splitNl cs <;> simp

theorem splitNl_append_no_nl (x b : List Char) (hx : '\n' ∉ x) :
    splitNl (x ++ b) = (x ++ (splitNl b).headI) :: (splitNl b).tail := by
  induction x with
  | nil =>
    simp
    cases hb : splitNl b with
    | nil => exact absurd hb (splitNl_ne_nil b)
    | cons l ls => simp
  | cons c x' ih =>
    have hc : c ≠ '\n' := fun h => hx (by simp [h])
    rw [List.cons_append, splitNl, if_neg hc, ih (fun h => hx (by simp [h]))]
    simp

theorem splitNl_frame (A B old new : List Char) (hold : '\n' ∉ old)
    (hnew : '\n' ∉ new) :
    (splitNl (A ++ old ++ B)).length = (splitNl (A ++ new ++ B)).length ∧
    ∀ i, i ≠ A.count '\n' →
      (splitNl (A ++ old ++ B)).get? i = (splitNl (A ++ new ++ B)).get? i := by
  induction A with
  | nil =>
    simp only [List.nil_append, List.count_nil]
    rw [splitNl_append_no_nl old B hold, splitNl_append_no_nl new B hnew]
    refine ⟨by simp, ?_⟩
    intro i hi
    cases i with
    | zero => exact absurd rfl hi
    | succ j => simp
  | cons c A' ih =>
    have heq1 : (c :: A') ++ old ++ B = c :: (A' ++ old ++ B) := by simp
    have heq2 : (c :: A') ++ new ++ B = c :: (A' ++ new ++ B) := by simp
    rw [heq1, heq2]
    by_cases hc : c = '\n'
    · subst hc
      have hcount : (('\n' : Char) :: A').count '\n' = A'.count '\n' + 1 := by
        simp [List.count_cons]
      rw [splitNl, if_pos rfl, splitNl, if_pos rfl, hcount]
      refine ⟨by simp only [List.length_cons, ih.1], ?_⟩
      intro i hi
      cases i with
      | zero => rfl
      | succ j =>
        simp only [List.get?_cons_succ]
        exact ih.2 j (by omega)
    · have hcount : (c :: A').count '\n' = A'.count '\n' := by
        rw [List.count_cons]
        have : ('\n' == c) = false := by
          simp
          exact fun h => hc h.symm
        simp [this]
        exact hc
      rw [splitNl, if_neg hc, splitNl, if_neg hc, hcount]
      cases e1 : splitNl (A' ++ old ++ B) with
      | nil => exact absurd e1 (splitNl_ne_nil _)
      | cons l1 ls1 =>
        cases e2 : splitNl (A' ++ new ++ B) with
        | nil => exact absurd e2 (splitNl_ne_nil _)
        | cons l2 ls2 =>
          have hlen := ih.1
          rw [e1, e2] at hlen
          simp only [List.length_cons] at hlen
          refine ⟨by simp only [List.length_cons]; omega, ?_⟩
          intro i hi
          cases i with
          | zero =>
            have h0 := ih.2 0 hi
            rw [e1, e2] at h0
            simp only [List.get?_cons_zero, Option.some.injEq] at h0 ⊢
            rw [h0]
          | succ j =>
            have hj := ih.2 (j + 1) hi
            rw [e1, e2] at hj
            simpa using hj

theorem frame_pack (pre c1 c2 v rest : List Char) (hc2 : '\n' ∉ c2)
    (hv : '\n' ∉ v) :
    (splitNl (pre ++ (c1 ++ (v ++ '"' :: rest)))).length =
      (splitNl (pre ++ (c1 ++ (c2 ++ '"' :: rest)))).length ∧
    ∃ k, ∀ i, i ≠ k →
      (splitNl (pre ++ (c1 ++ (v ++ '"' :: rest)))).get? i =
        (splitNl (pre ++ (c1 ++ (c2 ++ '"' :: rest)))).get? i := by
  have h := splitNl_frame (pre ++ c1) ('"' :: rest) v c2 hv hc2
  have e1 : pre ++ c1 ++ v ++ '"' :: rest = pre ++ (c1 ++ (v ++ '"' :: rest)) := by
    simp
  have e2 : pre ++ c1 ++ c2 ++ '"' :: rest = pre ++ (c1 ++ (c2 ++ '"' :: rest)) := by
    simp
  rw [e1, e2] at h
  exact ⟨h.1, (pre ++ c1).count '\n', h.2⟩

/-- C3 (amended): whenever some line of the raw text matches the
detailed-table or the simple pattern for the dependency, `update_dependency`
succeeds, the result differs from the input only in the quoted version
value of the first match of the winning strategy, and — provided that
quoted value and the target version contain no line break — the result is
line-identical to the input except at one line index; when neither pattern
matches at any line start the operation fails and the held text is
unchanged. -/
theorem C3_update_dependency_surgery (name v text : List Char)
    (hv : '\n' ∉ v)
    (hd : noNlCap (findFromLineStarts (matchDetailed name) text) = true)
    (hs : noNlCap (findFromLineStarts (matchSimple name) text) = true) :
    ((∃ p q, text = p ++ q ∧ (p = [] ∨ p.getLast? = some '\n') ∧
        ((matchDetailed name q).isSome = true ∨ (matchSimple name q).isSome = true)) →
      ∃ r, update_dependency name v text = some r ∧
        (∃ pre c1 c2 rest, text = pre ++ (c1 ++ (c2 ++ '"' :: rest)) ∧
          r = pre ++ (c1 ++ (v ++ '"' :: rest)) ∧ c2 ≠ [] ∧ '"' ∉ c2) ∧
        (splitNl r).length = (splitNl text).length ∧
        (∃ k, ∀ i, i ≠ k → (splitNl r).get? i = (splitNl text).get? i)) ∧
    ((∀ p q, text = p ++ q → (p = [] ∨ p.getLast? = some '\n') →
        matchDetailed name q = none ∧ matchSimple name q = none) →
      update_dependency name v text = none) := by
  constructor
  · rintro ⟨p, q, hpq, hls, hmatch⟩
    cases hfd : findFromLineStarts (matchDetailed name) text with
    | some pr =>
      obtain ⟨pre, c1, c2, rest⟩ := pr
      have hupd : update_dependency name v text =
          some (pre ++ c1 ++ v ++ '"' :: rest) := by
        unfold update_dependency
        rw [hfd]
      obtain ⟨q0, hq0, hm0, _⟩ := findFromLineStarts_sound _ _ _ _ hfd
      obtain ⟨hq0eq, hc2ne, hc2q⟩ := matchDetailed_sound _ _ _ _ _ hm0
      have htext : text = pre ++ (c1 ++ (c2 ++ '"' :: rest)) := by
        rw [hq0, hq0eq]
        simp
      have hc2nl : '\n' ∉ c2 := by
        rw [hfd] at hd
        unfold noNlCap at hd
        simp at hd
        exact hd
      have hr : pre ++ c1 ++ v ++ '"' :: rest =
          pre ++ (c1 ++ (v ++ '"' :: rest)) := by simp
      have hframe := frame_pack pre c1 c2 v rest hc2nl hv
      refine ⟨pre ++ (c1 ++ (v ++ '"' :: rest)), by rw [hupd, hr], ?_, ?_, ?_⟩
      · exact ⟨pre, c1, c2, rest, htext, rfl, hc2ne, hc2q⟩
      · rw [htext]
        exact hframe.1
      · rw [htext]
        exact hframe.2
    | none =>
      have hsimple : (matchSimple name q).isSome = true := by
        rcases hmatch with hmd | hms
        · cases hmd0 : matchDetailed name q with
          | none => rw [hmd0] at hmd; simp at hmd
          | some r0 =>
            have := findFromLineStarts_complete (matchDetailed name) p q r0 hls hmd0
            rw [hpq] at hfd
            rw [hfd] at this
            simp at this
        · exact hms
      cases hms0 : matchSimple name q with
      | none => rw [hms0] at hsimple; simp at hsimple
      | some r0 =>
        cases hfs : findFromLineStarts (matchSimple name) text with
        | none =>
          have := findFromLineStarts_complete (matchSimple name) p q r0 hls hms0
          rw [hpq] at hfs
          rw [hfs] at this
          simp at this
        | some pr =>
          obtain ⟨pre, c1, c2, rest⟩ := pr
          have hupd : update_dependency name v text =
              some (pre ++ c1 ++ v ++ '"' :: rest) := by
            unfold update_dependency
            rw [hfd, hfs]
          obtain ⟨q0, hq0, hm0, _⟩ := findFromLineStarts_sound _ _ _ _ hfs
          obtain ⟨hq0eq, hc2ne, hc2q⟩ := matchSimple_sound _ _ _ _ _ hm0
          have htext : text = pre ++ (c1 ++ (c2 ++ '"' :: rest)) := by
            rw [hq0, hq0eq]
            simp
          have hc2nl : '\n' ∉ c2 := by
            rw [hfs] at hs
            unfold noNlCap at hs
            simp at hs
            exact hs
          have hr : pre ++ c1 ++ v ++ '"' :: rest =
              pre ++ (c1 ++ (v ++ '"' :: rest)) := by simp
          have hframe := frame_pack pre c1 c2 v rest hc2nl hv
          refine ⟨pre ++ (c1 ++ (v ++ '"' :: rest)), by rw [hupd, hr], ?_, ?_, ?_⟩
          · exact ⟨pre, c1, c2, rest, htext, rfl, hc2ne, hc2q⟩
          · rw [htext]
            exact hframe.1
          · rw [htext]
            exact hframe.2
  · intro hall
    cases hfd : findFromLineStarts (matchDetailed name) text with
    | some pr =>
      obtain ⟨pre, r0⟩ := pr
      obtain ⟨q0, hq0, hm0, hls0⟩ := findFromLineStarts_sound _ _ _ _ hfd
      exact absurd hm0 (by rw [(hall pre q0 hq0 hls0).1]; simp)
    | none =>
      cases hfs : findFromLineStarts (matchSimple name) text with
      | some pr =>
        obtain ⟨pre, r0⟩ := pr
        obtain ⟨q0, hq0, hm0, hls0⟩ := findFromLineStarts_sound _ _ _ _ hfs
        exact absurd hm0 (by rw [(hall pre q0 hq0 hls0).2]; simp)
      | none =>
        unfold update_dependency
        rw [hfd, hfs]

/-- C3 counterexample: the text `foo = "a\nb"\nfoo = "1.0.0"` contains a
line (`foo = "1.0.0"`, at a line start) that assigns the dependency to a
quoted version string, and the operation succeeds — but the regex quoted
value `[^"]+` matched across a newline at the first occurrence, so the
result has 2 lines where the input had 3: the result is not line-identical
to the input except one line. -/
theorem C3_counterexample :
    ("foo = \"a\nb\"\n".data).getLast? = some '\n' ∧
    ("foo = \"a\nb\"\nfoo = \"1.0.0\"".data) =
      ("foo = \"a\nb\"\n".data) ++ ("foo = \"1.0.0\"".data) ∧
    (matchSimple ("foo".data) ("foo = \"1.0.0\"".data)).isSome = true ∧
    update_dependency ("foo".data) ("9.9.9".data)
        ("foo = \"a\nb\"\nfoo = \"1.0.0\"".data) =
      some ("foo = \"9.9.9\"\nfoo = \"1.0.0\"".data) ∧
    (splitNl ("foo = \"a\nb\"\nfoo = \"1.0.0\"".data)).length = 3 ∧
    (splitNl ("foo = \"9.9.9\"\nfoo = \"1.0.0\"".data)).length = 2 := by
  refine ⟨by decide, by decide, by decide, by decide, by decide, by decide⟩

/-- Witness for C3 at a concrete manifest text. -/
theorem C3_update_dependency_surgery_witness :
    ∃ r, update_dependency ("foo".data) ("1.2.0".data)
        ("[dependencies]\nfoo = \"1.0.0\"\nbar = \"2\"\n".data) = some r ∧
      (∃ pre c1 c2 rest,
        ("[dependencies]\nfoo = \"1.0.0\"\nbar = \"2\"\n".data) =
          pre ++ (c1 ++ (c2 ++ '"' :: rest)) ∧
        r = pre ++ (c1 ++ (("1.2.0".data) ++ '"' :: rest)) ∧ c2 ≠ [] ∧ '"' ∉ c2) ∧
      (splitNl r).length =
        (splitNl ("[dependencies]\nfoo = \"1.0.0\"\nbar = \"2\"\n".data)).length ∧
      (∃ k, ∀ i, i ≠ k → (splitNl r).get? i =
        (splitNl ("[dependencies]\nfoo = \"1.0.0\"\nbar = \"2\"\n".data)).get? i) :=
  (C3_update_dependency_surgery ("foo".data) ("1.2.0".data)
      ("[dependencies]\nfoo = \"1.0.0\"\nbar = \"2\"\n".data)
      (by decide) (by decide) (by decide)).1
    ⟨("[dependencies]\n".data), ("foo = \"1.0.0\"\nbar = \"2\"\n".data),
      by decide, Or.inr (by decide), Or.inr (by decide)⟩

/-- C10 counterexample: in `foo = "\nfoo = "1.0"` both lines match the
simple pattern at their line starts, yet rewriting the first match (whose
quoted value spans the newline) destroys the later matching line
`foo = "1.0"`: the result is a single line not containing it. -/
theorem C10_counterexample :
    (matchSimple ("foo".data) ("foo = \"\nfoo = \"1.0\"".data)).isSome = true ∧
    ("foo = \"\nfoo = \"1.0\"".data) =
      ("foo = \"\n".data) ++ ("foo = \"1.0\"".data) ∧
    ("foo = \"\n".data).getLast? = some '\n' ∧
    (matchSimple ("foo".data) ("foo = \"1.0\"".data)).isSome = true ∧
    update_dependency ("foo".data) ("9.9.9".data)
        ("foo = \"\nfoo = \"1.0\"".data) =
      some ("foo = \"9.9.9\"1.0\"".data) ∧
    splitNl ("foo = \"9.9.9\"1.0\"".data) = [("foo = \"9.9.9\"1.0\"".data)] ∧
    ("foo = \"1.0\"".data) ∉ splitNl ("foo = \"9.9.9\"1.0\"".data) := by
  refine ⟨by decide, by decide, by decide, by decide, by decide, by decide, by decide⟩

/-- C10 (amended): when the raw text contains two or more line starts
matching the operative strategy's pattern, `update_dependency` reports
success, rewrites only the quoted value of the first (leftmost) matching
occurrence — no earlier line start matches — and the entire suffix after
the first match's closing quote, which contains every later matching line,
is carried into the result byte-for-byte unchanged. -/
theorem C10_update_dependency_first_match_only (name v text : List Char) :
    (∀ pre c1 c2 rest,
      findFromLineStarts (matchDetailed name) text = some (pre, (c1, c2, rest)) →
      (update_dependency name v text = some ((pre ++ c1 ++ v ++ ['"']) ++ rest) ∧
       text = (pre ++ c1 ++ c2 ++ ['"']) ++ rest ∧
       (∀ p q, text = p ++ q → (p = [] ∨ p.getLast? = some '\n') →
         p.length < pre.length → matchDetailed name q = none))) ∧
    (findFromLineStarts (matchDetailed name) text = none →
      ∀ pre c1 c2 rest,
        findFromLineStarts (matchSimple name) text = some (pre, (c1, c2, rest)) →
        (update_dependency name v text = some ((pre ++ c1 ++ v ++ ['"']) ++ rest) ∧
         text = (pre ++ c1 ++ c2 ++ ['"']) ++ rest ∧
         (∀ p q, text = p ++ q → (p = [] ∨ p.getLast? = some '\n') →
           p.length < pre.length → matchSimple name q = none))) := by
  constructor
  · intro pre c1 c2 rest hfd
    obtain ⟨q0, hq0, hm0, _⟩ := findFromLineStarts_sound _ _ _ _ hfd
    obtain ⟨hq0eq, _, _⟩ := matchDetailed_sound _ _ _ _ _ hm0
    refine ⟨?_, ?_, ?_⟩
    · unfold update_dependency
      rw [hfd]
      simp
    · rw [hq0, hq0eq]
      simp
    · exact findFromLineStarts_min _ _ _ _ hfd
  · intro hnone pre c1 c2 rest hfs
    obtain ⟨q0, hq0, hm0, _⟩ := findFromLineStarts_sound _ _ _ _ hfs
    obtain ⟨hq0eq, _, _⟩ := matchSimple_sound _ _ _ _ _ hm0
    refine ⟨?_, ?_, ?_⟩
    · unfold update_dependency
      rw [hnone, hfs]
      simp
    · rw [hq0, hq0eq]
      simp
    · exact findFromLineStarts_min _ _ _ _ hfs

/-- Witness for C10: a text with two simple-form `foo` lines; the first is
rewritten, the suffix holding the second is preserved verbatim. -/
theorem C10_update_dependency_first_match_only_witness :
    update_dependency ("foo".data) ("9.9.9".data)
        ("foo = \"1\"\nfoo = \"2\"\n".data) =
      some ((([] : List Char) ++ ("foo = \"".data) ++ ("9.9.9".data) ++ ['"']) ++
        ("\nfoo = \"2\"\n".data)) ∧
    ("foo = \"1\"\nfoo = \"2\"\n".data) =
      (([] : List Char) ++ ("foo = \"".data) ++ ("1".data) ++ ['"']) ++
        ("\nfoo = \"2\"\n".data) :=
  ⟨((C10_update_dependency_first_match_only ("foo".data) ("9.9.9".data)
        ("foo = \"1\"\nfoo = \"2\"\n".data)).2 (by decide) [] ("foo = \"".data)
        ("1".data) ("\nfoo = \"2\"\n".data) (by decide)).1,
   ((C10_update_dependency_first_match_only ("foo".data) ("9.9.9".data)
        ("foo = \"1\"\nfoo = \"2\"\n".data)).2 (by decide) [] ("foo = \"".data)
        ("1".data) ("\nfoo = \"2\"\n".data) (by decide)).2.1⟩

theorem splitNl_no_nl_mem (s : List Char) : ∀ l ∈ splitNl s, '\n' ∉ l := by
  induction s with
  | nil => simp [splitNl]
  | cons c cs ih =>
    intro l hl
    rw [splitNl] at hl
    by_cases hc : c = '\n'
    · rw [if_pos hc] at hl
      simp at hl
      rcases hl with rfl | hl
      · simp
      · exact ih l hl
    · rw [if_neg hc] at hl
      cases e : splitNl cs with
      | nil => exact absurd e (splitNl_ne_nil cs)
      | cons l0 ls0 =>
        rw [e] at hl
        simp at hl
        rcases hl with rfl | hl
        · intro hmem
          simp at hmem
          rcases hmem with rfl | hmem
          · exact hc rfl
          · exact ih l0 (by rw [e]; simp) hmem
        · exact ih l (by rw [e]; simp [hl])

theorem splitNl_single (l : List Char) (h : '\n' ∉ l) : splitNl l = [l] := by
  have := splitNl_append_no_nl l [] h
  rw [List.append_nil] at this
  rw [this]
  simp [splitNl]

theorem splitNl_joinNl (ls : List (List Char)) (hne : ls ≠ [])
    (h : ∀ l ∈ ls, '\n' ∉ l) : splitNl (joinNl ls) = ls := by
  induction ls with
  | nil => exact absurd rfl hne
  | cons l ls' ih =>
    cases ls' with
    | nil => exact splitNl_single l (h l (by simp))
    | cons l2 ls'' =>
      have hj : joinNl (l :: l2 :: ls'') = l ++ '\n' :: joinNl (l2 :: ls'') := rfl
      rw [hj, splitNl_append_no_nl l ('\n' :: joinNl (l2 :: ls'')) (h l (by simp))]
      rw [splitNl, if_pos rfl]
      have hne2 : l2 :: ls'' ≠ [] := by simp
      have harg : ∀ x ∈ l2 :: ls'', '\n' ∉ x :=
        fun x hx => h x (List.mem_cons_of_mem l hx)
      rw [ih hne2 harg]
      simp

/-- C5: `remove_dependency` removes exactly the declaration lines of the
named dependency and keeps every other line in order and spacing; when no
declaration line exists it fails like `update_dependency` (not-found). -/
theorem C5_remove_dependency_lines (name text : List Char) :
    ((∃ l, l ∈ splitNl text ∧ isDeclLine name l = true) →
      ∃ r, remove_dependency name text = some r ∧
        r = joinNl ((splitNl text).filter (fun l => !isDeclLine name l)) ∧
        ((splitNl text).filter (fun l => !isDeclLine name l) ≠ [] →
          splitNl r = (splitNl text).filter (fun l => !isDeclLine name l))) ∧
    ((∀ l ∈ splitNl text, isDeclLine name l = false) →
      remove_dependency name text = none) := by
  constructor
  · rintro ⟨l0, hl0, hdecl⟩
    have hall : ((splitNl text).all (fun l => !isDeclLine name l)) = false := by
      rw [List.all_eq_false]
      exact ⟨l0, hl0, by simp [hdecl]⟩
    refine ⟨joinNl ((splitNl text).filter (fun l => !isDeclLine name l)), ?_, rfl, ?_⟩
    · unfold remove_dependency
      simp only [hall]
      simp
    · intro hne
      refine splitNl_joinNl _ hne ?_
      intro l hl
      exact splitNl_no_nl_mem text l (List.mem_of_mem_filter hl)
  · intro hall
    unfold remove_dependency
    have : ((splitNl text).all (fun l => !isDeclLine name l)) = true := by
      rw [List.all_eq_true]
      intro l hl
      simp [hall l hl]
    simp only [this]
    simp

/-- Witness for C5 at a concrete manifest text. -/
theorem C5_remove_dependency_lines_witness :
    ∃ r, remove_dependency ("foo".data)
        ("[dependencies]\nfoo = \"1.0.0\"\nbar = \"2\"\n".data) = some r ∧
      r = joinNl ((splitNl ("[dependencies]\nfoo = \"1.0.0\"\nbar = \"2\"\n".data)).filter
        (fun l => !isDeclLine ("foo".data) l)) ∧
      ((splitNl ("[dependencies]\nfoo = \"1.0.0\"\nbar = \"2\"\n".data)).filter
          (fun l => !isDeclLine ("foo".data) l) ≠ [] →
        splitNl r = (splitNl ("[dependencies]\nfoo = \"1.0.0\"\nbar = \"2\"\n".data)).filter
          (fun l => !isDeclLine ("foo".data) l)) :=
  (C5_remove_dependency_lines ("foo".data)
      ("[dependencies]\nfoo = \"1.0.0\"\nbar = \"2\"\n".data)).1
    ⟨("foo = \"1.0.0\"".data), by decide, by decide⟩

theorem uint32_cases (a b : UInt32) : a < b ∨ a = b ∨ b < a := by
  have ha : a < b ↔ a.toNat < b.toNat := Iff.rfl
  have hb : b < a ↔ b.toNat < a.toNat := Iff.rfl
  by_cases h1 : a.toNat < b.toNat
  · exact Or.inl (ha.mpr h1)
  · by_cases h2 : b.toNat < a.toNat
    · exact Or.inr (Or.inr (hb.mpr h2))
    · exact Or.inr (Or.inl (UInt32.ext (by omega)))

theorem cmpChars_eq_imp (a b : List Char) (h : cmpChars a b = .eq) : a = b := by
  induction a generalizing b with
  | nil => cases b with
    | nil => rfl
    | cons y ys => simp [cmpChars] at h
  | cons x xs ih =>
    cases b with
    | nil => simp [cmpChars] at h
    | cons y ys =>
      rw [cmpChars] at h
      by_cases h1 : x.val < y.val
      · rw [if_pos h1] at h
        exact absurd h (by simp)
      · rw [if_neg h1] at h
        by_cases h2 : y.val < x.val
        · rw [if_pos h2] at h
          exact absurd h (by simp)
        · rw [if_neg h2] at h
          have hxy : x = y := by
            refine Char.ext (UInt32.ext ?_)
            have h1' : ¬ x.val.toNat < y.val.toNat := h1
            have h2' : ¬ y.val.toNat < x.val.toNat := h2
            omega
          rw [hxy, ih ys h]

theorem cmpChars_swap (a b : List Char) : cmpChars b a = (cmpChars a b).swap := by
  induction a generalizing b with
  | nil => cases b <;> rfl
  | cons x xs ih =>
    cases b with
    | nil => rfl
    | cons y ys =>
      rw [cmpChars, cmpChars]
      rcases uint32_cases x.val y.val with h | h | h
      · have hn : ¬ y.val < x.val := by
          have h' : x.val.toNat < y.val.toNat := h
          have : ¬ y.val.toNat < x.val.toNat := by omega
          exact this
        rw [if_neg hn, if_pos h, if_pos h]
        rfl
      · have hxy : x = y := Char.ext h
        subst hxy
        have hn : ¬ x.val < x.val := by
          have : ¬ (x.val.toNat < x.val.toNat) := by omega
          exact this
        simp only [if_neg hn]
        rw [ih ys]
      · have hn : ¬ x.val < y.val := by
          have h' : y.val.toNat < x.val.toNat := h
          have : ¬ x.val.toNat < y.val.toNat := by omega
          exact this
        rw [if_pos h, if_neg hn, if_pos h]
        rfl

theorem cmpChars_lt_trans (a b c : List Char) (h1 : cmpChars a b = .lt)
    (h2 : cmpChars b c = .lt) : cmpChars a c = .lt := by
  induction a generalizing b c with
  | nil =>
    cases c with
    | nil =>
      cases b with
      | nil => exact h1
      | cons y ys => simp [cmpChars] at h2
    | cons z zs => simp [cmpChars]
  | cons x xs ih =>
    cases b with
    | nil => simp [cmpChars] at h1
    | cons y ys =>
      cases c with
      | nil => simp [cmpChars] at h2
      | cons z zs =>
        rw [cmpChars] at h1 h2 ⊢
        have hxy : x.val.toNat < y.val.toNat ∨
            (x.val.toNat = y.val.toNat ∧ cmpChars xs ys = .lt) := by
          by_cases ha : x.val < y.val
          · exact Or.inl ha
          · rw [if_neg ha] at h1
            by_cases hb : y.val < x.val
            · rw [if_pos hb] at h1
              exact absurd h1 (by simp)
            · rw [if_neg hb] at h1
              have ha' : ¬ x.val.toNat < y.val.toNat := ha
              have hb' : ¬ y.val.toNat < x.val.toNat := hb
              exact Or.inr ⟨by omega, h1⟩
        have hyz : y.val.toNat < z.val.toNat ∨
            (y.val.toNat = z.val.toNat ∧ cmpChars ys zs = .lt) := by
          by_cases ha : y.val < z.val
          · exact Or.inl ha
          · rw [if_neg ha] at h2
            by_cases hb : z.val < y.val
            · rw [if_pos hb] at h2
              exact absurd h2 (by simp)
            · rw [if_neg hb] at h2
              have ha' : ¬ y.val.toNat < z.val.toNat := ha
              have hb' : ¬ z.val.toNat < y.val.toNat := hb
              exact Or.inr ⟨by omega, h2⟩
        rcases hxy with hxy | ⟨hxy, hxs⟩
        · rcases hyz with hyz | ⟨hyz, _⟩
          · have : x.val < z.val := by
              show x.val.toNat < z.val.toNat
              omega
            rw [if_pos this]
          · have : x.val < z.val := by
              show x.val.toNat < z.val.toNat
              omega
            rw [if_pos this]
        · rcases hyz with hyz | ⟨hyz, hys⟩
          · have : x.val < z.val := by
              show x.val.toNat < z.val.toNat
              omega
            rw [if_pos this]
          · have hnlt : ¬ x.val < z.val := by
              show ¬ x.val.toNat < z.val.toNat
              omega
            have hngt : ¬ z.val < x.val := by
              show ¬ z.val.toNat < x.val.toNat
              omega
            rw [if_neg hnlt, if_neg hngt]
            exact ih ys zs hxs hys

theorem cmpPreId_eq_imp (a b : PreId) (h : cmpPreId a b = .eq) : a = b := by
  cases a <;> cases b <;> simp [cmpPreId] at h ⊢
  · exact Nat.compare_eq_eq.mp h
  · exact cmpChars_eq_imp _ _ h

theorem natCompare_swap (x y : Nat) : compare y x = (compare x y).swap := by
  rcases Nat.lt_trichotomy x y with h | h | h
  · rw [Nat.compare_eq_lt.mpr h, Nat.compare_eq_gt.mpr h]
    rfl
  · rw [Nat.compare_eq_eq.mpr h, Nat.compare_eq_eq.mpr h.symm]
    rfl
  · rw [Nat.compare_eq_gt.mpr h, Nat.compare_eq_lt.mpr h]
    rfl

theorem cmpPreId_swap (a b : PreId) : cmpPreId b a = (cmpPreId a b).swap := by
  cases a with
  | num x =>
    cases b with
    | num y => exact natCompare_swap x y
    | alpha t => rfl
  | alpha s =>
    cases b with
    | num y => rfl
    | alpha t => exact cmpChars_swap s t

theorem cmpPreId_lt_trans (a b c : PreId) (h1 : cmpPreId a b = .lt)
    (h2 : cmpPreId b c = .lt) : cmpPreId a c = .lt := by
  cases a <;> cases b <;> cases c <;> simp [cmpPreId] at h1 h2 ⊢
  · exact Nat.compare_eq_lt.mpr
      (Nat.lt_trans (Nat.compare_eq_lt.mp h1) (Nat.compare_eq_lt.mp h2))
  · exact cmpChars_lt_trans _ _ _ h1 h2

theorem cmpPreList_eq_imp (a b : List PreId) (h : cmpPreList a b = .eq) : a = b := by
  induction a generalizing b with
  | nil => cases b with
    | nil => rfl
    | cons y ys => simp [cmpPreList] at h
  | cons x xs ih =>
    cases b with
    | nil => simp [cmpPreList] at h
    | cons y ys =>
      rw [cmpPreList] at h
      cases he : cmpPreId x y with
      | eq =>
        rw [he] at h
        rw [cmpPreId_eq_imp x y he, ih ys h]
      | lt => rw [he] at h; exact absurd h (by simp)
      | gt => rw [he] at h; exact absurd h (by simp)

theorem cmpPreList_swap (a b : List PreId) : cmpPreList b a = (cmpPreList a b).swap := by
  induction a generalizing b with
  | nil => cases b <;> rfl
  | cons x xs ih =>
    cases b with
    | nil => rfl
    | cons y ys =>
      rw [cmpPreList, cmpPreList, cmpPreId_swap x y]
      cases cmpPreId x y with
      | eq => exact ih ys
      | lt => rfl
      | gt => rfl

theorem cmpPreList_lt_trans (a b c : List PreId) (h1 : cmpPreList a b = .lt)
    (h2 : cmpPreList b c = .lt) : cmpPreList a c = .lt := by
  induction a generalizing b c with
  | nil =>
    cases c with
    | nil =>
      cases b with
      | nil => exact h1
      | cons y ys => simp [cmpPreList] at h2
    | cons z zs => simp [cmpPreList]
  | cons x xs ih =>
    cases b with
    | nil => simp [cmpPreList] at h1
    | cons y ys =>
      cases c with
      | nil => simp [cmpPreList] at h2
      | cons z zs =>
        rw [cmpPreList] at h1 h2 ⊢
        cases e1 : cmpPreId x y with
        | gt => rw [e1] at h1; exact absurd h1 (by simp)
        | lt =>
          cases e2 : cmpPreId y z with
          | gt => rw [e2] at h2; exact absurd h2 (by simp)
          | lt => rw [cmpPreId_lt_trans x y z e1 e2]
          | eq =>
            rw [cmpPreId_eq_imp y z e2] at e1
            rw [e1]
        | eq =>
          rw [e1] at h1
          cases e2 : cmpPreId y z with
          | gt => rw [e2] at h2; exact absurd h2 (by simp)
          | lt =>
            rw [cmpPreId_eq_imp x y e1, e2]
          | eq =>
            rw [e2] at h2
            rw [cmpPreId_eq_imp x y e1, e2]
            exact ih ys zs h1 h2

theorem cmpPre_eq_imp (a b : List PreId) (h : cmpPre a b = .eq) : a = b := by
  cases a with
  | nil =>
    cases b with
    | nil => rfl
    | cons y ys => simp [cmpPre] at h
  | cons x xs =>
    cases b with
    | nil => simp [cmpPre] at h
    | cons y ys => exact cmpPreList_eq_imp _ _ h

theorem cmpPre_swap (a b : List PreId) : cmpPre b a = (cmpPre a b).swap := by
  cases a with
  | nil =>
    cases b with
    | nil => rfl
    | cons y ys => rfl
  | cons x xs =>
    cases b with
    | nil => rfl
    | cons y ys => exact cmpPreList_swap (x :: xs) (y :: ys)

theorem cmpPre_lt_trans (a b c : List PreId) (h1 : cmpPre a b = .lt)
    (h2 : cmpPre b c = .lt) : cmpPre a c = .lt := by
  cases a with
  | nil =>
    cases b with
    | nil => simp [cmpPre] at h1
    | cons y ys => simp [cmpPre] at h1
  | cons x xs =>
    cases c with
    | nil => rfl
    | cons z zs =>
      cases b with
      | nil => simp [cmpPre] at h2
      | cons y ys => exact cmpPreList_lt_trans (x :: xs) (y :: ys) (z :: zs) h1 h2

theorem cmpBuildId_eq_imp (a b : List Char) (h : cmpBuildId a b = .eq) : a = b := by
  unfold cmpBuildId at h
  by_cases hab : (a.all isDigitChar && b.all isDigitChar) = true
  · rw [if_pos hab] at h
    cases hl : compare a.length b.length with
    | eq => rw [hl] at h; exact cmpChars_eq_imp a b h
    | lt => rw [hl] at h; exact absurd h (by simp)
    | gt => rw [hl] at h; exact absurd h (by simp)
  · rw [if_neg hab] at h
    by_cases ha : a.all isDigitChar = true
    · rw [if_pos ha] at h
      exact absurd h (by simp)
    · rw [if_neg ha] at h
      by_cases hb : b.all isDigitChar = true
      · rw [if_pos hb] at h
        exact absurd h (by simp)
      · rw [if_neg hb] at h
        exact cmpChars_eq_imp a b h

theorem cmpBuildId_swap (a b : List Char) : cmpBuildId b a = (cmpBuildId a b).swap := by
  unfold cmpBuildId
  by_cases ha : a.all isDigitChar = true <;> by_cases hb : b.all isDigitChar = true <;>
    simp [ha, hb]
  · rw [natCompare_swap a.length b.length]
    cases compare a.length b.length with
    | eq => exact cmpChars_swap a b
    | lt => rfl
    | gt => rfl
  · rfl
  · rfl
  · exact cmpChars_swap a b

theorem cmpBuildId_lt_trans (a b c : List Char) (h1 : cmpBuildId a b = .lt)
    (h2 : cmpBuildId b c = .lt) : cmpBuildId a c = .lt := by
  unfold cmpBuildId at h1 h2 ⊢
  by_cases ha : a.all isDigitChar = true <;> by_cases hb : b.all isDigitChar = true <;>
    by_cases hc : c.all isDigitChar = true <;> simp [ha, hb, hc] at h1 h2 ⊢
  · cases e1 : compare a.length b.length with
    | gt => rw [e1] at h1; exact absurd h1 (by simp)
    | lt =>
      cases e2 : compare b.length c.length with
      | gt => rw [e2] at h2; exact absurd h2 (by simp)
      | lt =>
        rw [Nat.compare_eq_lt.mpr
          (Nat.lt_trans (Nat.compare_eq_lt.mp e1) (Nat.compare_eq_lt.mp e2))]
      | eq =>
        rw [Nat.compare_eq_eq.mp e2] at e1
        rw [e1]
    | eq =>
      rw [e1] at h1
      cases e2 : compare b.length c.length with
      | gt => rw [e2] at h2; exact absurd h2 (by simp)
      | lt =>
        rw [Nat.compare_eq_eq.mp e1, e2]
      | eq =>
        rw [e2] at h2
        rw [Nat.compare_eq_eq.mp e1, e2]
        exact cmpChars_lt_trans a b c h1 h2
  · exact cmpChars_lt_trans a b c h1 h2

theorem cmpBuildList_eq_imp (a b : List (List Char)) (h : cmpBuildList a b = .eq) :
    a = b := by
  induction a generalizing b with
  | nil => cases b with
    | nil => rfl
    | cons y ys => simp [cmpBuildList] at h
  | cons x xs ih =>
    cases b with
    | nil => simp [cmpBuildList] at h
    | cons y ys =>
      rw [cmpBuildList] at h
      cases he : cmpBuildId x y with
      | eq =>
        rw [he] at h
        rw [cmpBuildId_eq_imp x y he, ih ys h]
      | lt => rw [he] at h; exact absurd h (by simp)
      | gt => rw [he] at h; exact absurd h (by simp)

theorem cmpBuildList_swap (a b : List (List Char)) :
    cmpBuildList b a = (cmpBuildList a b).swap := by
  induction a generalizing b with
  | nil => cases b <;> rfl
  | cons x xs ih =>
    cases b with
    | nil => rfl
    | cons y ys =>
      rw [cmpBuildList, cmpBuildList, cmpBuildId_swap x y]
      cases cmpBuildId x y with
      | eq => exact ih ys
      | lt => rfl
      | gt => rfl

theorem cmpBuildList_lt_trans (a b c : List (List Char)) (h1 : cmpBuildList a b = .lt)
    (h2 : cmpBuildList b c = .lt) : cmpBuildList a c = .lt := by
  induction a generalizing b c with
  | nil =>
    cases c with
    | nil =>
      cases b with
      | nil => exact h1
      | cons y ys => simp [cmpBuildList] at h2
    | cons z zs => simp [cmpBuildList]
  | cons x xs ih =>
    cases b with
    | nil => simp [cmpBuildList] at h1
    | cons y ys =>
      cases c with
      | nil => simp [cmpBuildList] at h2
      | cons z zs =>
        rw [cmpBuildList] at h1 h2 ⊢
        cases e1 : cmpBuildId x y with
        | gt => rw [e1] at h1; exact absurd h1 (by simp)
        | lt =>
          cases e2 : cmpBuildId y z with
          | gt => rw [e2] at h2; exact absurd h2 (by simp)
          | lt => rw [cmpBuildId_lt_trans x y z e1 e2]
          | eq =>
            rw [cmpBuildId_eq_imp y z e2] at e1
            rw [e1]
        | eq =>
          rw [e1] at h1
          cases e2 : cmpBuildId y z with
          | gt => rw [e2] at h2; exact absurd h2 (by simp)
          | lt =>
            rw [cmpBuildId_eq_imp x y e1, e2]
          | eq =>
            rw [e2] at h2
            rw [cmpBuildId_eq_imp x y e1, e2]
            exact ih ys zs h1 h2

theorem cmpVer_eq_imp (a b : SemVer) (h : cmpVer a b = .eq) : a = b := by
  obtain ⟨a1, a2, a3, a4, a5⟩ := a
  obtain ⟨b1, b2, b3, b4, b5⟩ := b
  rw [cmpVer] at h
  cases e1 : compare a1 b1 with
  | lt => rw [e1] at h; exact absurd h (by simp)
  | gt => rw [e1] at h; exact absurd h (by simp)
  | eq =>
    rw [e1] at h
    cases e2 : compare a2 b2 with
    | lt => rw [e2] at h; exact absurd h (by simp)
    | gt => rw [e2] at h; exact absurd h (by simp)
    | eq =>
      rw [e2] at h
      cases e3 : compare a3 b3 with
      | lt => rw [e3] at h; exact absurd h (by simp)
      | gt => rw [e3] at h; exact absurd h (by simp)
      | eq =>
        rw [e3] at h
        cases e4 : cmpPre a4 b4 with
        | lt => rw [e4] at h; exact absurd h (by simp)
        | gt => rw [e4] at h; exact absurd h (by simp)
        | eq =>
          rw [e4] at h
          simp only [Nat.compare_eq_eq.mp e1, Nat.compare_eq_eq.mp e2,
            Nat.compare_eq_eq.mp e3, cmpPre_eq_imp a4 b4 e4,
            cmpBuildList_eq_imp a5 b5 h]

theorem cmpVer_swap (a b : SemVer) : cmpVer b a = (cmpVer a b).swap := by
  obtain ⟨a1, a2, a3, a4, a5⟩ := a
  obtain ⟨b1, b2, b3, b4, b5⟩ := b
  rw [cmpVer, cmpVer]
  simp only
  rw [natCompare_swap a1 b1]
  cases compare a1 b1 with
  | lt => rfl
  | gt => rfl
  | eq =>
    rw [natCompare_swap a2 b2]
    cases compare a2 b2 with
    | lt => rfl
    | gt => rfl
    | eq =>
      rw [natCompare_swap a3 b3]
      cases compare a3 b3 with
      | lt => rfl
      | gt => rfl
      | eq =>
        rw [cmpPre_swap a4 b4]
        cases cmpPre a4 b4 with
        | lt => rfl
        | gt => rfl
        | eq => exact cmpBuildList_swap a5 b5

theorem cmpVer_lt_trans (a b c : SemVer) (h1 : cmpVer a b = .lt)
    (h2 : cmpVer b c = .lt) : cmpVer a c = .lt := by
  obtain ⟨a1, a2, a3, a4, a5⟩ := a
  obtain ⟨b1, b2, b3, b4, b5⟩ := b
  obtain ⟨c1, c2, c3, c4, c5⟩ := c
  rw [cmpVer] at h1 h2 ⊢
  simp only at h1 h2 ⊢
  cases e1 : compare a1 b1 with
  | gt => rw [e1] at h1; exact absurd h1 (by simp)
  | lt =>
    cases e2 : compare b1 c1 with
    | gt => rw [e2] at h2; exact absurd h2 (by simp)
    | lt =>
      rw [Nat.compare_eq_lt.mpr
        (Nat.lt_trans (Nat.compare_eq_lt.mp e1) (Nat.compare_eq_lt.mp e2))]
    | eq =>
      rw [← Nat.compare_eq_eq.mp e2, e1]
  | eq =>
    rw [e1] at h1
    cases e2 : compare b1 c1 with
    | gt => rw [e2] at h2; exact absurd h2 (by simp)
    | lt =>
      rw [Nat.compare_eq_eq.mp e1, e2]
    | eq =>
      rw [e2] at h2
      rw [Nat.compare_eq_eq.mp e1, e2]
      cases f1 : compare a2 b2 with
      | gt => rw [f1] at h1; exact absurd h1 (by simp)
      | lt =>
        cases f2 : compare b2 c2 with
        | gt => rw [f2] at h2; exact absurd h2 (by simp)
        | lt =>
          rw [Nat.compare_eq_lt.mpr
            (Nat.lt_trans (Nat.compare_eq_lt.mp f1) (Nat.compare_eq_lt.mp f2))]
        | eq =>
          rw [← Nat.compare_eq_eq.mp f2, f1]
      | eq =>
        rw [f1] at h1
        cases f2 : compare b2 c2 with
        | gt => rw [f2] at h2; exact absurd h2 (by simp)
        | lt =>
          rw [Nat.compare_eq_eq.mp f1, f2]
        | eq =>
          rw [f2] at h2
          rw [Nat.compare_eq_eq.mp f1, f2]
          cases g1 : compare a3 b3 with
          | gt => rw [g1] at h1; exact absurd h1 (by simp)
          | lt =>
            cases g2 : compare b3 c3 with
            | gt => rw [g2] at h2; exact absurd h2 (by simp)
            | lt =>
              rw [Nat.compare_eq_lt.mpr
                (Nat.lt_trans (Nat.compare_eq_lt.mp g1) (Nat.compare_eq_lt.mp g2))]
            | eq =>
              rw [← Nat.compare_eq_eq.mp g2, g1]
          | eq =>
            rw [g1] at h1
            cases g2 : compare b3 c3 with
            | gt => rw [g2] at h2; exact absurd h2 (by simp)
            | lt =>
              rw [Nat.compare_eq_eq.mp g1, g2]
            | eq =>
              rw [g2] at h2
              rw [Nat.compare_eq_eq.mp g1, g2]
              cases k1 : cmpPre a4 b4 with
              | gt => rw [k1] at h1; exact absurd h1 (by simp)
              | lt =>
                cases k2 : cmpPre b4 c4 with
                | gt => rw [k2] at h2; exact absurd h2 (by simp)
                | lt => rw [cmpPre_lt_trans a4 b4 c4 k1 k2]
                | eq => rw [← cmpPre_eq_imp b4 c4 k2, k1]
              | eq =>
                rw [k1] at h1
                cases k2 : cmpPre b4 c4 with
                | gt => rw [k2] at h2; exact absurd h2 (by simp)
                | lt => rw [cmpPre_eq_imp a4 b4 k1, k2]
                | eq =>
                  rw [k2] at h2
                  rw [cmpPre_eq_imp a4 b4 k1, k2]
                  exact cmpBuildList_lt_trans a5 b5 c5 h1 h2

theorem cmpVer_refl (a : SemVer) : cmpVer a a = .eq := by
  have h := cmpVer_swap a a
  cases e : cmpVer a a with
  | eq => rfl
  | lt => rw [e] at h; exact absurd h (by simp [Ordering.swap])
  | gt => rw [e] at h; exact absurd h (by simp [Ordering.swap])

theorem leVer_refl (a : SemVer) : leVer a a = true := by
  unfold leVer
  rw [cmpVer_refl]

theorem leVer_iff (a b : SemVer) : leVer a b = true ↔ cmpVer a b ≠ Ordering.gt := by
  unfold leVer
  cases cmpVer a b <;> simp

theorem leVer_false_iff (a b : SemVer) :
    leVer a b = false ↔ cmpVer a b = Ordering.gt := by
  unfold leVer
  cases cmpVer a b <;> simp

theorem leVer_of_not (a b : SemVer) (h : leVer a b = false) : leVer b a = true := by
  rw [leVer_false_iff] at h
  have hlt : cmpVer b a = Ordering.lt := by
    rw [cmpVer_swap, h]
    rfl
  rw [leVer_iff, hlt]
  simp

theorem leVer_trans (a b c : SemVer) (h1 : leVer a b = true) (h2 : leVer b c = true) :
    leVer a c = true := by
  rw [leVer_iff] at h1 h2 ⊢
  cases e1 : cmpVer a b with
  | gt => exact absurd e1 h1
  | lt =>
    cases e2 : cmpVer b c with
    | gt => exact absurd e2 h2
    | lt =>
      rw [cmpVer_lt_trans a b c e1 e2]
      simp
    | eq =>
      rw [← cmpVer_eq_imp b c e2, e1]
      simp
  | eq =>
    rw [cmpVer_eq_imp a b e1]
    exact h2

theorem mem_insVer (v x : SemVer) (l : List SemVer) :
    x ∈ insVer v l ↔ x = v ∨ x ∈ l := by
  induction l with
  | nil => simp [insVer]
  | cons w ws ih =>
    rw [insVer]
    by_cases h : leVer v w = true
    · rw [if_pos h]
      simp
    · rw [if_neg h]
      simp [ih]
      tauto

theorem mem_sortVers (l : List SemVer) (x : SemVer) : x ∈ sortVers l ↔ x ∈ l := by
  induction l with
  | nil => simp [sortVers]
  | cons a l' ih =>
    have : sortVers (a :: l') = insVer a (sortVers l') := rfl
    rw [this, mem_insVer]
    simp [ih]

theorem chain_insVer (v : SemVer) (l : List SemVer)
    (h : List.Chain' (fun x y => leVer x y = true) l) :
    List.Chain' (fun x y => leVer x y = true) (insVer v l) := by
  induction l with
  | nil => simp [insVer]
  | cons w ws ih =>
    rw [insVer]
    by_cases hle : leVer v w = true
    · rw [if_pos hle]
      exact List.Chain'.cons hle h
    · rw [if_neg hle]
      have hwv : leVer w v = true := leVer_of_not v w (by simp at hle; exact hle)
      have hws : List.Chain' (fun x y => leVer x y = true) ws :=
        List.Chain'.tail h
      have hins := ih hws
      rw [List.chain'_cons']
      refine ⟨?_, hins⟩
      intro b hb
      cases ws with
      | nil =>
        simp [insVer] at hb
        rw [← hb]
        exact hwv
      | cons u us =>
        rw [insVer] at hb
        by_cases hvu : leVer v u = true
        · rw [if_pos hvu] at hb
          simp at hb
          rw [← hb]
          exact hwv
        · rw [if_neg hvu] at hb
          simp at hb
          rw [← hb]
          exact (List.chain'_cons.mp h).1

theorem chain_sortVers (l : List SemVer) :
    List.Chain' (fun x y => leVer x y = true) (sortVers l) := by
  induction l with
  | nil => simp [sortVers]
  | cons a l' ih => exact chain_insVer a (sortVers l') ih

theorem chain_last_ge (l : List SemVer)
    (h : List.Chain' (fun x y => leVer x y = true) l) :
    ∀ x ∈ l, ∀ g, l.getLast? = some g → leVer x g = true := by
  induction l with
  | nil => simp
  | cons a l' ih =>
    intro x hx g hg
    cases l' with
    | nil =>
      simp at hx hg
      rw [hx, hg]
      exact leVer_refl g
    | cons b t =>
      have hab : leVer a b = true := (List.chain'_cons.mp h).1
      have htail : List.Chain' (fun x y => leVer x y = true) (b :: t) :=
        (List.chain'_cons.mp h).2
      have hg' : (b :: t).getLast? = some g := by
        rwa [List.getLast?_cons_cons] at hg
      rcases List.mem_cons.mp hx with rfl | hx'
      · exact leVer_trans x b g hab (ih htail b (by simp) g hg')
      · exact ih htail x hx' g hg'

theorem sortVers_length (l : List SemVer) : (sortVers l).length = l.length := by
  have hins : ∀ v m, (insVer v m).length = m.length + 1 := by
    intro v m
    induction m with
    | nil => rfl
    | cons w ws ih =>
      rw [insVer]
      by_cases h : leVer v w = true
      · rw [if_pos h]
        simp
      · rw [if_neg h]
        simp [ih]
  induction l with
  | nil => rfl
  | cons a l' ih =>
    have : sortVers (a :: l') = insVer a (sortVers l') := rfl
    rw [this, hins, ih]
    rfl

theorem suggest_version_none_iff (vs : List (List Char)) :
    suggest_version vs = none ↔ vs.filterMap parseVersion = [] := by
  unfold suggest_version
  dsimp only []
  cases e : (sortVers (vs.filterMap parseVersion)).getLast? with
  | none =>
    simp only
    constructor
    · intro _
      have hnil : sortVers (vs.filterMap parseVersion) = [] := by
        cases hc : sortVers (vs.filterMap parseVersion) with
        | nil => rfl
        | cons a t =>
          rw [hc] at e
          simp [List.getLast?_eq_getLast] at e
      have := sortVers_length (vs.filterMap parseVersion)
      rw [hnil] at this
      simp at this
      exact List.length_eq_zero.mp this.symm
    · intro _
      trivial
  | some m =>
    simp only
    constructor
    · intro h
      simp at h
    · intro h
      have : sortVers (vs.filterMap parseVersion) = [] := by rw [h]; rfl
      rw [this] at e
      simp [List.getLast?] at e

theorem suggest_version_max (vs : List (List Char)) (s : List Char)
    (h : suggest_version vs = some s) :
    ∃ m, m ∈ vs.filterMap parseVersion ∧ s = verToChars m ∧
      ∀ w ∈ vs.filterMap parseVersion, leVer w m = true := by
  unfold suggest_version at h
  dsimp only [] at h
  cases e : (sortVers (vs.filterMap parseVersion)).getLast? with
  | none => rw [e] at h; simp at h
  | some m =>
    rw [e] at h
    simp at h
    refine ⟨m, ?_, h.symm, ?_⟩
    · exact (mem_sortVers _ m).mp (List.mem_of_mem_getLast? e)
    · intro w hw
      exact chain_last_ge _ (chain_sortVers _) w ((mem_sortVers _ w).mpr hw) m e

theorem getPV_pushPV (acc : List (List Char × List (List Char)))
    (name ver k : List Char) :
    getPV (pushPV acc name ver) k =
      if k = name then getPV acc k ++ [ver] else getPV acc k := by
  induction acc with
  | nil =>
    by_cases hk : k = name
    · subst hk
      simp [pushPV, getPV]
    · have hnk : ¬ name = k := fun h => hk h.symm
      simp [pushPV, getPV, hnk, hk]
  | cons e rest ih =>
    obtain ⟨k0, vs⟩ := e
    rw [pushPV]
    by_cases h0 : k0 = name
    · subst h0
      rw [if_pos rfl]
      by_cases hk : k0 = k
      · subst hk
        rw [getPV, if_pos rfl, getPV, if_pos rfl, if_pos rfl]
      · have hkn : ¬ k = k0 := fun h => hk h.symm
        rw [getPV, if_neg hk, getPV, if_neg hk, if_neg hkn]
    · rw [if_neg h0]
      by_cases hk : k0 = k
      · subst hk
        have hkn : ¬ k0 = name := h0
        rw [getPV, if_pos rfl, getPV, if_pos rfl, if_neg hkn]
      · rw [getPV, if_neg hk, getPV, if_neg hk, ih]

theorem keys_pushPV (acc : List (List Char × List (List Char)))
    (name ver k : List Char) :
    k ∈ (pushPV acc name ver).map Prod.fst ↔
      k ∈ acc.map Prod.fst ∨ k = name := by
  induction acc with
  | nil => simp [pushPV]
  | cons e rest ih =>
    obtain ⟨k0, vs⟩ := e
    rw [pushPV]
    by_cases h0 : k0 = name
    · subst h0
      rw [if_pos rfl]
      simp
      tauto
    · rw [if_neg h0]
      rw [List.map_cons, List.mem_cons, List.map_cons, List.mem_cons, ih]
      tauto

theorem nodup_pushPV (acc : List (List Char × List (List Char)))
    (name ver : List Char) (h : (acc.map Prod.fst).Nodup) :
    ((pushPV acc name ver).map Prod.fst).Nodup := by
  induction acc with
  | nil => simp [pushPV]
  | cons e rest ih =>
    obtain ⟨k0, vs⟩ := e
    rw [List.map_cons] at h
    obtain ⟨h1, h2⟩ := List.nodup_cons.mp h
    rw [pushPV]
    by_cases h0 : k0 = name
    · rw [if_pos h0, List.map_cons]
      exact List.nodup_cons.mpr ⟨h1, h2⟩
    · rw [if_neg h0, List.map_cons]
      refine List.nodup_cons.mpr ⟨?_, ih h2⟩
      intro hc
      rcases (keys_pushPV rest name ver k0).mp hc with hmm | he
      · exact h1 hmm
      · exact h0 he

theorem getPV_mem (acc : List (List Char × List (List Char)))
    (h : (acc.map Prod.fst).Nodup) (k : List Char) (vs : List (List Char))
    (hm : (k, vs) ∈ acc) : getPV acc k = vs := by
  induction acc with
  | nil => simp at hm
  | cons e rest ih =>
    obtain ⟨k0, vs0⟩ := e
    rw [List.map_cons] at h
    obtain ⟨h1, h2⟩ := List.nodup_cons.mp h
    rcases List.mem_cons.mp hm with he | hm'
    · obtain ⟨rfl, rfl⟩ := Prod.mk.injEq .. ▸ he
      rw [getPV, if_pos rfl]
    · rw [getPV]
      by_cases hk : k0 = k
      · subst hk
        have : k0 ∈ rest.map Prod.fst := by
          have := List.mem_map_of_mem Prod.fst hm'
          simpa using this
        exact absurd this h1
      · rw [if_neg hk]
        exact ih h2 hm'

theorem mem_getPV (acc : List (List Char × List (List Char)))
    (h : (acc.map Prod.fst).Nodup) (k : List Char)
    (hm : k ∈ acc.map Prod.fst) : (k, getPV acc k) ∈ acc := by
  induction acc with
  | nil => simp at hm
  | cons e rest ih =>
    obtain ⟨k0, vs0⟩ := e
    rw [List.map_cons] at h
    obtain ⟨h1, h2⟩ := List.nodup_cons.mp h
    rcases List.mem_cons.mp hm with rfl | hm'
    · rw [getPV, if_pos rfl]
      exact List.mem_cons_self _ _
    · rw [getPV]
      by_cases hk : k0 = k
      · subst hk
        exact absurd hm' h1
      · rw [if_neg hk]
        exact List.mem_cons_of_mem _ (ih h2 hm')

theorem getPV_foldl (es : List (List Char × List Char))
    (acc : List (List Char × List (List Char))) (k : List Char) :
    getPV (es.foldl (fun a e => pushPV a e.1 e.2) acc) k =
      getPV acc k ++
        es.filterMap (fun e => if e.1 = k then some e.2 else none) := by
  induction es generalizing acc with
  | nil => simp
  | cons e es' ih =>
    rw [List.foldl_cons, ih, getPV_pushPV]
    by_cases hk : k = e.1
    · subst hk
      rw [if_pos rfl, List.filterMap_cons, if_pos rfl]
      simp
    · have hne : ¬ e.1 = k := fun h => hk h.symm
      rw [if_neg hk, List.filterMap_cons, if_neg hne]

theorem keys_foldl (es : List (List Char × List Char))
    (acc : List (List Char × List (List Char))) (k : List Char) :
    k ∈ ((es.foldl (fun a e => pushPV a e.1 e.2) acc).map Prod.fst) ↔
      k ∈ acc.map Prod.fst ∨ ∃ e ∈ es, e.1 = k := by
  induction es generalizing acc with
  | nil => simp
  | cons e es' ih =>
    rw [List.foldl_cons, ih, keys_pushPV]
    constructor
    · rintro ((hm | he) | ⟨x, hxmem, hk⟩)
      · exact Or.inl hm
      · exact Or.inr ⟨e, List.mem_cons_self e es', he.symm⟩
      · exact Or.inr ⟨x, List.mem_cons_of_mem e hxmem, hk⟩
    · rintro (hm | ⟨x, hxmem, hk⟩)
      · exact Or.inl (Or.inl hm)
      · rcases List.mem_cons.mp hxmem with rfl | hxmem2
        · exact Or.inl (Or.inr hk.symm)
        · exact Or.inr ⟨x, hxmem2, hk⟩

theorem nodup_foldl (es : List (List Char × List Char))
    (acc : List (List Char × List (List Char)))
    (h : (acc.map Prod.fst).Nodup) :
    ((es.foldl (fun a e => pushPV a e.1 e.2) acc).map Prod.fst).Nodup := by
  induction es generalizing acc with
  | nil => exact h
  | cons e es' ih =>
    rw [List.foldl_cons]
    exact ih _ (nodup_pushPV acc e.1 e.2 h)

theorem accumPV_nodup (out : List Char) : ((accumPV out).map Prod.fst).Nodup := by
  unfold accumPV
  exact nodup_foldl _ [] (by simp)

theorem accumPV_getPV (out : List Char) (k : List Char) :
    getPV (accumPV out) k = observedVersions k out := by
  unfold accumPV observedVersions
  rw [getPV_foldl]
  rfl

theorem accumPV_keys (out : List Char) (k : List Char) :
    k ∈ (accumPV out).map Prod.fst ↔
      ∃ e ∈ (rustLines out).filterMap lineEntry, e.1 = k := by
  unfold accumPV
  rw [keys_foldl]
  simp

theorem accumPV_mem_iff (out : List Char) (k : List Char) (vs : List (List Char)) :
    (k, vs) ∈ accumPV out ↔
      vs = observedVersions k out ∧ observedVersions k out ≠ [] := by
  constructor
  · intro hm
    have hv := getPV_mem (accumPV out) (accumPV_nodup out) k vs hm
    rw [accumPV_getPV] at hv
    refine ⟨hv.symm, ?_⟩
    intro hnil
    rw [hnil] at hv
    subst hv
    have hk : k ∈ (accumPV out).map Prod.fst := by
      have := List.mem_map_of_mem Prod.fst hm
      simpa using this
    rw [accumPV_keys] at hk
    obtain ⟨e, hmem, hke⟩ := hk
    have hobs : e.2 ∈ observedVersions k out := by
      unfold observedVersions
      refine List.mem_filterMap.mpr ⟨e, hmem, ?_⟩
      rw [if_pos hke]
    rw [hnil] at hobs
    simp at hobs
  · rintro ⟨rfl, hne⟩
    obtain ⟨b, hb⟩ := List.exists_mem_of_ne_nil _ hne
    have hb2 := hb
    unfold observedVersions at hb2
    obtain ⟨e, hmem, hfe⟩ := List.mem_filterMap.mp hb2
    have hek : e.1 = k := by
      by_cases h : e.1 = k
      · exact h
      · rw [if_neg h] at hfe
        simp at hfe
    have hk : k ∈ (accumPV out).map Prod.fst := by
      rw [accumPV_keys]
      exact ⟨e, hmem, hek⟩
    have hfin := mem_getPV (accumPV out) (accumPV_nodup out) k hk
    rwa [accumPV_getPV] at hfin

theorem mem_distinctVers (l : List (List Char)) (a : List Char) :
    a ∈ distinctVers l ↔ a ∈ l := by
  induction l with
  | nil => simp [distinctVers]
  | cons x xs ih =>
    rw [distinctVers]
    by_cases h : x ∈ xs
    · rw [if_pos h, ih]
      constructor
      · exact fun hm => List.mem_cons_of_mem x hm
      · intro hm
        rcases List.mem_cons.mp hm with rfl | hm2
        · exact h
        · exact hm2
    · rw [if_neg h]
      simp [ih]

theorem nodup_distinctVers (l : List (List Char)) : (distinctVers l).Nodup := by
  induction l with
  | nil => simp [distinctVers]
  | cons x xs ih =>
    rw [distinctVers]
    by_cases h : x ∈ xs
    · rw [if_pos h]
      exact ih
    · rw [if_neg h]
      exact List.Nodup.cons (fun hm => h ((mem_distinctVers xs x).mp hm)) ih

theorem distinctVers_nil_iff (l : List (List Char)) :
    distinctVers l = [] ↔ l = [] := by
  induction l with
  | nil => simp [distinctVers]
  | cons x xs ih =>
    rw [distinctVers]
    by_cases h : x ∈ xs
    · rw [if_pos h, ih]
      constructor
      · intro he
        rw [he] at h
        simp at h
      · intro he
        simp at he
    · rw [if_neg h]
      simp

theorem mem_insConf (c x : Conflict) (l : List Conflict) :
    x ∈ insConf c l ↔ x = c ∨ x ∈ l := by
  induction l with
  | nil => simp [insConf]
  | cons d ds ih =>
    rw [insConf]
    by_cases h : cmpChars c.package_name d.package_name = Ordering.lt
    · rw [if_pos h]
      simp
    · rw [if_neg h]
      simp [ih]
      tauto

theorem mem_sortConfs (l : List Conflict) (x : Conflict) :
    x ∈ sortConfs l ↔ x ∈ l := by
  induction l with
  | nil => simp [sortConfs]
  | cons a l' ih =>
    have h : sortConfs (a :: l') = insConf a (sortConfs l') := rfl
    rw [h, mem_insConf]
    simp [ih]

theorem confLe_of_not_lt (c d : Conflict)
    (h : ¬ cmpChars c.package_name d.package_name = Ordering.lt) :
    cmpChars d.package_name c.package_name ≠ Ordering.gt := by
  rw [cmpChars_swap]
  cases e : cmpChars c.package_name d.package_name with
  | lt => exact absurd e h
  | eq => simp [Ordering.swap]
  | gt => simp [Ordering.swap]

theorem chain_insConf (c : Conflict) (l : List Conflict)
    (h : List.Chain' (fun a b => cmpChars a.package_name b.package_name ≠ Ordering.gt) l) :
    List.Chain' (fun a b => cmpChars a.package_name b.package_name ≠ Ordering.gt)
      (insConf c l) := by
  induction l with
  | nil => simp [insConf]
  | cons w ws ih =>
    rw [insConf]
    by_cases hlt : cmpChars c.package_name w.package_name = Ordering.lt
    · rw [if_pos hlt]
      refine List.Chain'.cons ?_ h
      rw [hlt]
      simp
    · rw [if_neg hlt]
      have hwv := confLe_of_not_lt c w hlt
      have hws : List.Chain' (fun a b => cmpChars a.package_name b.package_name ≠ Ordering.gt) ws :=
        List.Chain'.tail h
      have hins := ih hws
      rw [List.chain'_cons']
      refine ⟨?_, hins⟩
      intro b hb
      cases ws with
      | nil =>
        simp [insConf] at hb
        rw [← hb]
        exact hwv
      | cons u us =>
        rw [insConf] at hb
        by_cases hvu : cmpChars c.package_name u.package_name = Ordering.lt
        · rw [if_pos hvu] at hb
          simp at hb
          rw [← hb]
          exact hwv
        · rw [if_neg hvu] at hb
          simp at hb
          rw [← hb]
          exact (List.chain'_cons.mp h).1

theorem chain_sortConfs (l : List Conflict) :
    List.Chain' (fun a b => cmpChars a.package_name b.package_name ≠ Ordering.gt)
      (sortConfs l) := by
  induction l with
  | nil => simp [sortConfs]
  | cons a l' ih => exact chain_insConf a (sortConfs l') ih

theorem mem_parse_duplicates (out : List Char) (c : Conflict) :
    c ∈ parse_duplicates out ↔
      ∃ k, 1 < (distinctVers (observedVersions k out)).length ∧
        c = ⟨k, distinctVers (observedVersions k out),
             (observedVersions k out).map (fun _ => depTreeMark),
             suggest_version (distinctVers (observedVersions k out))⟩ := by
  unfold parse_duplicates
  dsimp only []
  rw [mem_sortConfs, List.mem_filterMap]
  constructor
  · rintro ⟨e, hmem, hfe⟩
    obtain ⟨k, vs⟩ := e
    rw [accumPV_mem_iff] at hmem
    obtain ⟨hv, -⟩ := hmem
    subst hv
    dsimp only [] at hfe
    by_cases hlen : 1 < (distinctVers (observedVersions k out)).length
    · rw [if_pos hlen] at hfe
      exact ⟨k, hlen, (Option.some.inj hfe).symm⟩
    · rw [if_neg hlen] at hfe
      simp at hfe
  · rintro ⟨k, hlen, rfl⟩
    have hne : observedVersions k out ≠ [] := by
      intro h0
      rw [h0] at hlen
      simp [distinctVers] at hlen
    refine ⟨(k, observedVersions k out), ?_, ?_⟩
    · exact (accumPV_mem_iff out k _).mpr ⟨rfl, hne⟩
    · rw [if_pos hlen]

/-- C6 (amended): for every duplicates-listing text, a line `<name>
v<version>` contributes to the package's observed multiset when the
tree-drawing characters are attached to the leading name token (the code
strips them from the first whitespace token only, so tree prefixes that
form separate tokens make the line contribute nothing); a Conflict is
produced for a package iff its set of distinct version strings has more
than one element; conflicts are sorted by package name; each conflict's
versions are exactly the distinct observed ones and its
suggested_version is the textual maximum of those that parse as semver,
absent iff none parses; and the listing `foo v1.0.0` with `foo v1.0.1`
twice yields exactly one Conflict for `foo` with both versions and
suggestion `1.0.1`, while repeated identical versions yield none. -/
theorem C6_parse_duplicates_characterisation :
    (∀ out : List Char,
      (∀ c, c ∈ parse_duplicates out ↔
        ∃ k, 1 < (distinctVers (observedVersions k out)).length ∧
          c = ⟨k, distinctVers (observedVersions k out),
               (observedVersions k out).map (fun _ => depTreeMark),
               suggest_version (distinctVers (observedVersions k out))⟩) ∧
      List.Chain' (fun a b => cmpChars a.package_name b.package_name ≠ Ordering.gt)
        (parse_duplicates out) ∧
      (∀ c, c ∈ parse_duplicates out →
        c.versions.Nodup ∧ 1 < c.versions.length ∧
        (∀ v, v ∈ c.versions ↔ v ∈ observedVersions c.package_name out) ∧
        c.suggested_version = suggest_version c.versions ∧
        (c.suggested_version = none ↔ c.versions.filterMap parseVersion = []) ∧
        (∀ s, c.suggested_version = some s →
          ∃ m, m ∈ c.versions.filterMap parseVersion ∧ s = verToChars m ∧
            ∀ w ∈ c.versions.filterMap parseVersion, leVer w m = true))) ∧
    parse_duplicates (("foo v1.0.0\nfoo v1.0.1\nfoo v1.0.1").data) =
      [⟨"foo".data, ["1.0.0".data, "1.0.1".data],
        [depTreeMark, depTreeMark, depTreeMark], some ("1.0.1".data)⟩] ∧
    parse_duplicates (("foo v1.0.0\nfoo v1.0.0").data) = [] := by
  refine ⟨?_, by decide, by decide⟩
  intro out
  refine ⟨mem_parse_duplicates out, ?_, ?_⟩
  · show List.Chain' _ (sortConfs _)
    exact chain_sortConfs _
  · intro c hc
    obtain ⟨k, hlen, rfl⟩ := (mem_parse_duplicates out c).mp hc
    refine ⟨nodup_distinctVers _, hlen, ?_, rfl, ?_, ?_⟩
    · intro v
      exact mem_distinctVers _ v
    · exact suggest_version_none_iff _
    · intro s hs
      exact suggest_version_max _ s hs

/-- C6 counterexample: in `|-- foo v1.0.0` the tree prefix `|--` is a
separate whitespace token, so the code extracts nothing from the line,
while the spec's rule (strip leading tree characters and spaces, then
read name and version) makes it contribute `1.0.0` for `foo`; together
with `foo v2.0.0` the spec predicts a conflict for `foo`, yet
`parse_duplicates` returns no conflict at all. -/
theorem C6_counterexample :
    ((rustLines (("|-- foo v1.0.0\nfoo v2.0.0").data)).filterMap specLineContrib) =
      [("foo".data, "1.0.0".data), ("foo".data, "2.0.0".data)] ∧
    ((rustLines (("|-- foo v1.0.0\nfoo v2.0.0").data)).filterMap lineEntry) =
      [("foo".data, "2.0.0".data)] ∧
    parse_duplicates (("|-- foo v1.0.0\nfoo v2.0.0").data) = [] := by
  refine ⟨by decide, by decide, by decide⟩

theorem C6_parse_duplicates_characterisation_witness :
    (⟨"foo".data, ["1.0.0".data, "1.0.1".data],
      [depTreeMark, depTreeMark, depTreeMark],
      some ("1.0.1".data)⟩ : Conflict) ∈
        parse_duplicates (("foo v1.0.0\nfoo v1.0.1\nfoo v1.0.1").data) ∧
    1 < (⟨"foo".data, ["1.0.0".data, "1.0.1".data],
      [depTreeMark, depTreeMark, depTreeMark],
      some ("1.0.1".data)⟩ : Conflict).versions.length := by
  refine ⟨by decide, ?_⟩
  exact ((C6_parse_duplicates_characterisation.1
    (("foo v1.0.0\nfoo v1.0.1\nfoo v1.0.1").data)).2.2 _ (by decide)).2.1
